import Mathlib

/-!
Verification development for the acacia modular application kernel.

Shallow embedding of the core components (access controller, service
registry, event bus, lifecycle coordinator) translated from the Go source:

* core/auth/auth.go              — sanitizer, HasPermission, helper checks
* core/errors/errors.go          — registry segment: DefaultRegistry.GetService
* core/events/bus.go             — bus Subscribe/Publish/Close as a state machine
* kernel (unnamed/part_010)      — AddModule/RemoveModule/Start/Stop/Enable/Disable,
                                   getModuleStartupOrder (Kahn's algorithm)

Go strings in permission handling are modelled as lists of characters
(ASCII slicing in the source corresponds to list take/drop).  Go maps are
modelled as association lists; iteration order of a Go map is
nondeterministic, the list order is one deterministic refinement of it.
Module and gateway lifecycle callbacks are opaque to the kernel, so they
are modelled by oracle fields on the module record (the error each
callback returns, the services the module registers).  Timeouts, tracing,
metrics and logging have no effect on control flow or kernel state and
are not modelled.
-/

namespace Acacia

/-! ## Access controller (core/auth/auth.go) -/

/-- Character class of the regex used by permissionSanitizer:
the characters NOT matched by the pattern, i.e. a-z, A-Z, 0-9, dot, hyphen. -/
def isAllowedChar (c : Char) : Bool :=
  (('a' ≤ c && c ≤ 'z') || ('A' ≤ c && c ≤ 'Z') || ('0' ≤ c && c ≤ '9')
    || c == '.' || c == '-')

/-- ReplaceAllString of the regex pattern matching one-or-more disallowed
characters with a single underscore: each maximal run of disallowed
characters is replaced by one underscore.  The boolean flag records
whether we are inside a run of disallowed characters. -/
def sanitizeAux : Bool → List Char → List Char
  | _, [] => []
  | inRun, c :: rest =>
    if isAllowedChar c then c :: sanitizeAux false rest
    else if inRun then sanitizeAux true rest
    else '_' :: sanitizeAux true rest

/-- Translation of sanitizePermissionComponent: apply the sanitizer regex
replacement to the whole component. -/
def sanitizePermissionComponent (component : List Char) : List Char :=
  sanitizeAux false component

/-- Role of the auth package: a name and a list of permissions. -/
structure Role where
  name : List Char
  permissions : List (List Char)
  deriving DecidableEq

/-- Principal: id, type, and role names. -/
structure Principal where
  pid : List Char
  ptype : List Char
  roles : List (List Char)
  deriving DecidableEq

/-- An RBACProvider is a lookup from role name to role; `none` at the
outer level models a nil provider in DefaultAccessController. -/
def RBACProvider := List Char → Option Role

/-- Wildcard test from HasPermission: the role/permission string ends in
the two characters dot-star, and perm strictly extends the part before
them.  In Go: len(s) > 2 and s[len(s)-2:] == ".*" and
len(perm) > len(stem) and perm[:len(stem)] == stem. -/
def wildcardGrants (s perm : List Char) : Bool :=
  decide (s.length > 2) && (s.drop (s.length - 2) == ['.', '*']) &&
    (let stem := s.take (s.length - 2)
     decide (perm.length > stem.length) && (perm.take stem.length == stem))

/-- Translation of DefaultAccessController.HasPermission.  First loop:
direct role-name match or wildcard role name.  If no provider, deny.
Second loop: resolve each role through the provider and test its
permissions for equality or wildcard match. -/
def hasPermission (provider : Option RBACProvider) (p : Principal)
    (perm : List Char) : Bool :=
  (p.roles.any fun roleName =>
    roleName == perm || wildcardGrants roleName perm) ||
  (match provider with
   | none => false
   | some getRole =>
     p.roles.any fun roleName =>
       match getRole roleName with
       | some role =>
         role.permissions.any fun rolePerm =>
           rolePerm == perm || wildcardGrants rolePerm perm
       | none => false)

/-- Translation of CanPublishEvent. -/
def canPublishEvent (provider : Option RBACProvider) (p : Principal)
    (eventType : List Char) : Bool :=
  hasPermission provider p
    ("core.events.publish.".data ++ sanitizePermissionComponent eventType)

/-- Translation of CanSubscribeEvent. -/
def canSubscribeEvent (provider : Option RBACProvider) (p : Principal)
    (eventType : List Char) : Bool :=
  hasPermission provider p
    ("core.events.subscribe.".data ++ sanitizePermissionComponent eventType)

/-- Translation of CanAccessConfig. -/
def canAccessConfig (provider : Option RBACProvider) (p : Principal)
    (configKey : List Char) : Bool :=
  hasPermission provider p
    ("core.config.access.".data ++ sanitizePermissionComponent configKey)

/-- Translation of CanReloadModule. -/
def canReloadModule (provider : Option RBACProvider) (p : Principal)
    (moduleToReload : List Char) : Bool :=
  hasPermission provider p
    ("core.module.reload.".data ++ sanitizePermissionComponent moduleToReload)

/-- The transformation named by the spec sentence for C7: replace every
individual character outside the allowed class with an underscore. -/
def percharReplace (s : List Char) : List Char :=
  s.map fun c => if isAllowedChar c then c else '_'

/-! ## Service registry (registry segment of core/errors/errors.go) -/

/-- Association-list lookup, the model of a Go map read. -/
def mapGet {κ β : Type} [DecidableEq κ] : List (κ × β) → κ → Option β
  | [], _ => none
  | (k, v) :: rest, k' => if k = k' then some v else mapGet rest k'

/-- Association-list write, the model of a Go map assignment: replace the
binding if the key is present, append it otherwise. -/
def mapSet {κ β : Type} [DecidableEq κ] : List (κ × β) → κ → β → List (κ × β)
  | [], k, v => [(k, v)]
  | (k', v') :: rest, k, v =>
    if k' = k then (k, v) :: rest else (k', v') :: mapSet rest k v

/-- Association-list delete, the model of a Go map delete. -/
def mapDel {κ β : Type} [DecidableEq κ] : List (κ × β) → κ → List (κ × β)
  | [], _ => []
  | p :: rest, k => if p.1 = k then mapDel rest k else p :: mapDel rest k

deriving instance DecidableEq for Except

/-- Stored registry record: the opaque service value and the owning
module name. -/
structure ServiceEntry (α : Type) where
  service : α
  moduleName : String
  deriving DecidableEq

/-- State of DefaultRegistry: the services map and the gateways map. -/
structure RegistryState (α : Type) where
  services : List (String × ServiceEntry α)
  gateways : List (String × ServiceEntry α)
  deriving DecidableEq

/-- Errors returned by GetService. -/
inductive RegError where
  | notFound (name : String)
  | noPrincipal (name : String)
  | unauthorized (pid ptype : List Char) (name : String) (perm : List Char)
  deriving DecidableEq

/-- Permission string built by GetService:
service.(owningModule).(serviceName).access. -/
def servicePermission (moduleName name : String) : List Char :=
  "service.".data ++ moduleName.data ++ ".".data ++ name.data ++ ".access".data

/-- Translation of DefaultRegistry.GetService.  The access controller is
passed as the permission-decision function (HasPermission of the
controller the registry was built with).  The Go method takes only read
locks and performs no writes, which the pair result records by returning
the registry state alongside the lookup result. -/
def getService {α : Type} (ac : Principal → List Char → Bool)
    (r : RegistryState α) (ctxPrincipal : Option Principal) (name : String) :
    Except RegError α × RegistryState α :=
  match mapGet r.services name with
  | none => (.error (.notFound name), r)
  | some entry =>
    match ctxPrincipal with
    | none => (.error (.noPrincipal name), r)
    | some p =>
      if ac p (servicePermission entry.moduleName name) then
        (.ok entry.service, r)
      else
        (.error (.unauthorized p.pid p.ptype name
          (servicePermission entry.moduleName name)), r)

/-! ## Event bus (core/events/bus.go) -/

/-- A subscriber sink: the channel returned by Subscribe, with its closed
flag and its buffered contents (capacity 16). -/
structure SinkState (ε : Type) where
  closed : Bool
  buf : List ε
  deriving DecidableEq

/-- Bus state: every sink ever handed out (keyed by allocation id), the
topic map from topic name to subscribed sink ids, and the closed flag. -/
structure BusState (ε : Type) where
  nextId : Nat
  sinks : List (Nat × SinkState ε)
  topics : List (String × List Nat)
  closed : Bool
  deriving DecidableEq

/-- The bus returned by events.New. -/
def busInit (ε : Type) : BusState ε :=
  { nextId := 0, sinks := [], topics := [], closed := false }

/-- Pointwise update of the sink with the given id. -/
def updateSink {ε : Type} (f : SinkState ε → SinkState ε) (id : Nat)
    (sinks : List (Nat × SinkState ε)) : List (Nat × SinkState ε) :=
  sinks.map fun p => if p.1 = id then (p.1, f p.2) else p

/-- Model of close(ch): mark the sink closed. -/
def closeSink {ε : Type} (sinks : List (Nat × SinkState ε)) (id : Nat) :
    List (Nat × SinkState ε) :=
  updateSink (fun s => { s with closed := true }) id sinks

/-- Translation of bus.Subscribe: allocate a fresh channel; if the bus is
closed, hand it back already closed without touching the topic map;
otherwise add it to the topic's subscriber set (creating the entry). -/
def subscribe {ε : Type} (b : BusState ε) (topic : String) : Nat × BusState ε :=
  let id := b.nextId
  if b.closed then
    (id, { b with nextId := id + 1,
                  sinks := b.sinks ++ [(id, { closed := true, buf := [] })] })
  else
    let topics' :=
      match mapGet b.topics topic with
      | none => b.topics ++ [(topic, [id])]
      | some ids => mapSet b.topics topic (ids ++ [id])
    (id, { b with nextId := id + 1,
                  sinks := b.sinks ++ [(id, { closed := false, buf := [] })],
                  topics := topics' })

/-- Translation of the cancel closure returned by Subscribe: if the sink
is still subscribed to the topic, detach it, close it, and drop the topic
entry when it becomes empty. -/
def cancelSub {ε : Type} (b : BusState ε) (topic : String) (id : Nat) :
    BusState ε :=
  match mapGet b.topics topic with
  | none => b
  | some ids =>
    if id ∈ ids then
      let ids' := ids.filter (· ≠ id)
      { b with sinks := closeSink b.sinks id,
               topics := if ids'.isEmpty then mapDel b.topics topic
                         else mapSet b.topics topic ids' }
    else b

/-- Nonblocking send of Publish: append to the buffer when it has room,
drop the event otherwise.  (Sequentially, a sink reachable from the topic
map is never closed, so the panicking send-on-closed-channel case of Go
cannot arise.) -/
def trySend {ε : Type} (e : ε) (sinks : List (Nat × SinkState ε)) (id : Nat) :
    List (Nat × SinkState ε) :=
  updateSink (fun s => if s.buf.length < 16 then { s with buf := s.buf ++ [e] }
                       else s) id sinks

/-- Translation of bus.Publish with a live context: snapshot the topic's
subscriber set, then deliver to each sink with a nonblocking send. -/
def publish {ε : Type} (b : BusState ε) (topic : String) (e : ε) : BusState ε :=
  let ids := (mapGet b.topics topic).getD []
  { b with sinks := ids.foldl (trySend e) b.sinks }

/-- Translation of bus.Close: a second call returns immediately;
otherwise mark closed, close every sink reachable from the topic map and
delete every topic entry. -/
def busClose {ε : Type} (b : BusState ε) : BusState ε :=
  if b.closed then b
  else
    { b with closed := true,
             topics := [],
             sinks := b.topics.foldl (fun sk p => p.2.foldl closeSink sk) b.sinks }

/-- Bus API calls, for describing an arbitrary usage history of one bus. -/
inductive BusOp (ε : Type) where
  | sub (topic : String)
  | cancel (topic : String) (id : Nat)
  | pub (topic : String) (e : ε)
  | close

/-- One bus API call as a state transition. -/
def busStep {ε : Type} (b : BusState ε) : BusOp ε → BusState ε
  | .sub t => (subscribe b t).2
  | .cancel t id => cancelSub b t id
  | .pub t e => publish b t e
  | .close => busClose b

/-- The bus state after a usage history. -/
def busRun {ε : Type} (ops : List (BusOp ε)) : BusState ε :=
  ops.foldl busStep (busInit ε)

/-- Well-formedness invariant of reachable bus states: every open sink
is reachable from the topic map, a closed bus has an empty topic map,
and every sink id is below the allocation counter. -/
def busInv {ε : Type} (b : BusState ε) : Prop :=
  (∀ p : Nat × SinkState ε, p ∈ b.sinks → p.2.closed = false →
    ∃ t ids, mapGet b.topics t = some ids ∧ p.1 ∈ ids) ∧
  (b.closed = true → b.topics = []) ∧
  (∀ p : Nat × SinkState ε, p ∈ b.sinks → p.1 < b.nextId)

/-! ## Lifecycle coordinator (kernel, unnamed/part_010)

A module's lifecycle callbacks are opaque to the kernel; each callback is
modelled by an oracle field giving the error it returns (`none` =
success).  `services` lists the service names the module registers when
its RegisterServices callback succeeds. -/

/-- Kernel-side view of a module. -/
structure KModule where
  name : String
  version : String
  dependencies : List (String × String)
  shutdownTimeout : Int
  onLoadErr : Option String
  configureErr : Option String
  startErr : Option String
  registerServicesErr : Option String
  onReadyErr : Option String
  stopErr : Option String
  services : List String
  deriving DecidableEq

/-- Kernel-side view of a gateway. -/
structure KGateway where
  name : String
  shutdownTimeout : Int
  configureErr : Option String
  startErr : Option String
  stopErr : Option String
  deriving DecidableEq

/-- The kernel's guarded state: module map, gateway map, enabled-state
map, running flag, and the owned registry's contents (service name to
owning module, gateway name to its registry moduleName field).
`moduleConfigs`/`gatewayConfigs` are the key sets of config.Modules and
config.Gateways. -/
structure KernelState where
  modules : List (String × KModule)
  gateways : List (String × KGateway)
  moduleStates : List (String × Bool)
  running : Bool
  registryServices : List (String × String)
  registryGateways : List (String × String)
  moduleConfigs : List String
  gatewayConfigs : List String
  deriving DecidableEq

/-- Dependency-analysis errors of getModuleStartupOrder. -/
inductive DepErr where
  | invalidVersion (module version : String)
  | missingDep (module dep : String)
  | invalidConstraint (module dep : String)
  | invalidDepVersion (dep version : String)
  | constraintNotSatisfied (module cstr dep found : String)
  | circular
  deriving DecidableEq

/-- Kernel operation errors. -/
inductive KErr where
  | emptyName
  | noPrincipal (op name : String)
  | accessDenied (op name : String)
  | duplicate (name : String)
  | notFound (name : String)
  | alreadyRunning
  | notRunning
  | onLoad (name msg : String)
  | configure (name msg : String)
  | startModule (name msg : String)
  | registerServices (name msg : String)
  | onReady (name msg : String)
  | stopModule (name msg : String)
  | startGateway (name msg : String)
  | stopGateway (name msg : String)
  | orderErr (e : DepErr)
  deriving DecidableEq

/-- Lifecycle calls the kernel makes into components, recorded as a
trace. -/
inductive KCall where
  | onLoad (m : String)
  | configure (m : String)
  | startM (m : String)
  | registerServices (m : String)
  | onReady (m : String)
  | stopM (m : String)
  | startG (g : String)
  | stopG (g : String)
  | publishEvent (topic name : String)
  deriving DecidableEq

/-- Abstract interface of the external semver library
(Masterminds/semver): version parsing, constraint parsing, constraint
evaluation.  The kernel only branches on parse success and on the
boolean Check result. -/
structure SemverOps (V C : Type) where
  parseVersion : String → Option V
  parseConstraint : String → Option C
  check : C → V → Bool

/-- The enabled-module snapshot the kernel computes under its lock:
modules whose enabled-state entry is true. -/
def enabledSnapshot (k : KernelState) : List (String × KModule) :=
  k.modules.filter fun p => (mapGet k.moduleStates p.1).getD false

/-- Validation and edge recording of getModuleStartupOrder for the
declared dependencies of one module: each dependency must be in the
enabled set, its constraint must parse, its version must parse and
satisfy the constraint; then the edge dependency-to-dependent is
appended and the dependent's in-degree incremented. -/
def addDepEdges {V C : Type} (sv : SemverOps V C)
    (enabled : List (String × KModule)) (name : String) :
    List (String × String) → List (String × List String) × List (String × Int) →
    Except DepErr (List (String × List String) × List (String × Int))
  | [], gi => .ok gi
  | (depName, cstr) :: rest, gi =>
    match mapGet enabled depName with
    | none => .error (.missingDep name depName)
    | some dep =>
      match sv.parseConstraint cstr with
      | none => .error (.invalidConstraint name depName)
      | some c =>
        match sv.parseVersion dep.version with
        | none => .error (.invalidDepVersion depName dep.version)
        | some dv =>
          if sv.check c dv then
            addDepEdges sv enabled name rest
              (mapSet gi.1 depName ((mapGet gi.1 depName).getD [] ++ [name]),
               mapSet gi.2 name ((mapGet gi.2 name).getD 0 + 1))
          else .error (.constraintNotSatisfied name cstr depName dep.version)

/-- The per-module pass of getModuleStartupOrder: validate the module's
own version, then process its dependency list. -/
def buildGraph {V C : Type} (sv : SemverOps V C)
    (enabled : List (String × KModule)) :
    List (String × KModule) → List (String × List String) × List (String × Int) →
    Except DepErr (List (String × List String) × List (String × Int))
  | [], gi => .ok gi
  | (name, m) :: rest, gi =>
    match sv.parseVersion m.version with
    | none => .error (.invalidVersion name m.version)
    | some _ =>
      match addDepEdges sv enabled name m.dependencies gi with
      | .error e => .error e
      | .ok gi' => buildGraph sv enabled rest gi'

/-- Indicator for a positive in-degree entry. -/
def posInd (x : Int) : Nat := if 0 < x then 1 else 0

/-- Number of in-degree entries holding a positive count; with the queue
length it is the termination measure of Kahn's loop. -/
def countPos : List (String × Int) → Nat
  | [] => 0
  | p :: rest => posInd p.2 + countPos rest

/-- Inner loop of one Kahn removal: decrement each successor's in-degree
and collect (in order) the modules whose in-degree just reached zero.
In-degrees are integers exactly as in the source, so an entry already at
zero goes negative and is not enqueued again. -/
def processSuccs (enabled : List (String × KModule)) :
    List String → List (String × Int) → List (String × Int) × List KModule
  | [], inDeg => (inDeg, [])
  | s :: rest, inDeg =>
    let d := (mapGet inDeg s).getD 0 - 1
    let pr := processSuccs enabled rest (mapSet inDeg s d)
    (pr.1,
     if d = 0 then
       match mapGet enabled s with
       | some sm => sm :: pr.2
       | none => pr.2
     else pr.2)

/-- Kahn's algorithm main loop, structurally recursive on a fuel bound:
remove the queue head, emit it, process its successors, append the newly
zero-in-degree modules to the queue.  The source loop runs while the
queue is nonempty; the quantity queueLength + countPos inDeg strictly
decreases on each removal (processSuccs_measure below), so running the
loop with that quantity as fuel computes the same result as the
unbounded loop (kahnLoop_cons below recovers the unbounded unfolding). -/
def kahnLoopFuel (enabled : List (String × KModule))
    (graph : List (String × List String)) :
    Nat → List KModule → List (String × Int) → List KModule
  | 0, _, _ => []
  | _ + 1, [], _ => []
  | fuel + 1, m :: qrest, inDeg =>
    let pr := processSuccs enabled ((mapGet graph m.name).getD []) inDeg
    m :: kahnLoopFuel enabled graph fuel (qrest ++ pr.2) pr.1

/-- Kahn's algorithm main loop at its adequate fuel. -/
def kahnLoop (enabled : List (String × KModule))
    (graph : List (String × List String))
    (queue : List KModule) (inDeg : List (String × Int)) : List KModule :=
  kahnLoopFuel enabled graph (queue.length + countPos inDeg) queue inDeg

/-- The enabled filter of getModuleStartupOrder: modules whose
enabled-state entry is true. -/
def enabledOf (modules : List (String × KModule))
    (states : List (String × Bool)) : List (String × KModule) :=
  modules.filter fun p => (mapGet states p.1).getD false

/-- Translation of kernel.getModuleStartupOrder: filter the enabled
modules, validate versions and constraints while building the dependency
graph and in-degree map, run Kahn's algorithm from the zero-in-degree
seeds, and report a circular dependency when not all enabled modules
were emitted. -/
def getModuleStartupOrder {V C : Type} (sv : SemverOps V C)
    (modules : List (String × KModule)) (states : List (String × Bool)) :
    Except DepErr (List KModule) :=
  let enabled := enabledOf modules states
  match buildGraph sv enabled enabled ([], enabled.map fun p => (p.1, (0 : Int))) with
  | .error e => .error e
  | .ok gi =>
    let queue := (enabled.filter fun p => (mapGet gi.2 p.1).getD 0 = 0).map Prod.snd
    let ordered := kahnLoop enabled gi.1 queue gi.2
    if ordered.length = enabled.length then .ok ordered else .error .circular

/-- The dependency edges among the enabled modules, one
(dependency-name, dependent-name) pair per declared dependency, in the
iteration order of the validation loop. -/
def depEdges (enabled : List (String × KModule)) : List (String × String) :=
  enabled.flatMap fun p => p.2.dependencies.map fun q => (q.1, p.1)

/-- The statement that u occurs before x in the name sequence l. -/
def namesBefore (l : List String) (u x : String) : Prop :=
  ∃ l1 l2, l = l1 ++ x :: l2 ∧ u ∈ l1

/-- A cycle in the dependency graph among the enabled modules. -/
def hasDepCycle (enabled : List (String × KModule)) : Prop :=
  ∃ x, Relation.TransGen (fun u v => (u, v) ∈ depEdges enabled) x x

/-- Loop invariant of Kahn's algorithm: done are the emitted modules (in
order), queue the pending ones.  Emitted and queued names are distinct
and name enabled modules; the in-degree map counts, for every name, the
dependency edges into it from not-yet-emitted sources; a name is emitted
or queued exactly when it is enabled and all its dependency sources are
emitted; and every edge into an emitted module comes from a module
emitted earlier. -/
def kahnInv (enabled : List (String × KModule)) (done queue : List KModule)
    (inDeg : List (String × Int)) : Prop :=
  ((done.map (fun m => m.name) ++ queue.map fun m => m.name).Nodup) ∧
  (∀ mod ∈ done ++ queue, mapGet enabled mod.name = some mod) ∧
  (∀ x, (mapGet inDeg x).getD 0 =
    (((depEdges enabled).filter fun e =>
      e.2 = x ∧ e.1 ∉ done.map fun m => m.name).length : Int)) ∧
  (∀ x, (x ∈ done.map (fun m => m.name) ∨ x ∈ queue.map fun m => m.name) ↔
    (x ∈ enabled.map Prod.fst ∧
      ∀ e ∈ depEdges enabled, e.2 = x → e.1 ∈ done.map fun m => m.name)) ∧
  (∀ e ∈ depEdges enabled, e.2 ∈ done.map (fun m => m.name) →
    namesBefore (done.map fun m => m.name) e.1 e.2)

/-- What holds of the full emitted sequence when the loop ends: names
are distinct and name enabled modules; every edge whose target was
emitted comes from an earlier emission; and every enabled name that was
NOT emitted has an un-emitted dependency source. -/
def kahnFinal (enabled : List (String × KModule)) (full : List KModule) : Prop :=
  ((full.map fun m => m.name).Nodup) ∧
  (∀ mod ∈ full, mapGet enabled mod.name = some mod) ∧
  (∀ e ∈ depEdges enabled, e.2 ∈ full.map (fun m => m.name) →
    namesBefore (full.map fun m => m.name) e.1 e.2) ∧
  (∀ x ∈ enabled.map Prod.fst, x ∉ full.map (fun m => m.name) →
    ∃ u, u ∉ full.map (fun m => m.name) ∧ (u, x) ∈ depEdges enabled)

/-- Translation of kernel.getModuleShutdownOrder: the reverse of the
startup order. -/
def getModuleShutdownOrder {V C : Type} (sv : SemverOps V C)
    (modules : List (String × KModule)) (states : List (String × Bool)) :
    Except DepErr (List KModule) :=
  match getModuleStartupOrder sv modules states with
  | .error e => .error e
  | .ok l => .ok l.reverse

/-- Effect of a module's successful RegisterServices callback on the
registry: register each of its service names with itself as owner
(RegisterService rejects names already taken). -/
def registerModuleServices (reg : List (String × String)) (m : KModule) :
    List (String × String) :=
  m.services.foldl (fun r s => if (mapGet r s).isSome then r else r ++ [(s, m.name)]) reg

/-- Tail of AddModule once the module is loaded and configured: when the
kernel is running, start it (deleting the half-added module-map entry on
failure, as the source does — the enabled-state entry is not deleted),
then RegisterServices and OnReady whose failures are only logged. -/
def addModuleStartPhase (k1 : KernelState) (running : Bool) (m : KModule)
    (tr : List KCall) : Except KErr Unit × KernelState × List KCall :=
  if running then
    match m.startErr with
    | some e =>
      (.error (.startModule m.name e),
       { k1 with modules := mapDel k1.modules m.name }, tr ++ [.startM m.name])
    | none =>
      let k2 :=
        match m.registerServicesErr with
        | some _ => k1
        | none => { k1 with registryServices := registerModuleServices k1.registryServices m }
      (.ok (), k2, tr ++ [.startM m.name, .registerServices m.name, .onReady m.name])
  else (.ok (), k1, tr)

/-- Translation of kernel.AddModule.  Security checks, duplicate check,
insertion into the module map and enabled-state map (enabled by
default), OnLoad (failure deletes only the module-map entry), Configure
when a config slice exists (failure returns without deleting anything),
then the running-kernel start phase. -/
def addModule (k : KernelState) (hasPrincipal hasPerm : Bool) (m : KModule) :
    Except KErr Unit × KernelState × List KCall :=
  if m.name = "" then (.error .emptyName, k, [])
  else if ¬hasPrincipal then (.error (.noPrincipal "AddModule" m.name), k, [])
  else if ¬hasPerm then (.error (.accessDenied "AddModule" m.name), k, [])
  else if (mapGet k.modules m.name).isSome then (.error (.duplicate m.name), k, [])
  else
    let k1 := { k with modules := mapSet k.modules m.name m,
                       moduleStates := mapSet k.moduleStates m.name true }
    match m.onLoadErr with
    | some e =>
      (.error (.onLoad m.name e),
       { k1 with modules := mapDel k1.modules m.name }, [.onLoad m.name])
    | none =>
      if k.moduleConfigs.contains m.name then
        match m.configureErr with
        | some e =>
          (.error (.configure m.name e), k1, [.onLoad m.name, .configure m.name])
        | none =>
          addModuleStartPhase k1 k1.running m [.onLoad m.name, .configure m.name]
      else addModuleStartPhase k1 k1.running m [.onLoad m.name]

/-- Translation of kernel.RemoveModule.  Security checks, delete from
both maps, unregister owned services, then (when running) Stop — on
failure the module-map and enabled-state entries are put back but the
unregistered services are not. -/
def removeModule (k : KernelState) (hasPrincipal hasPerm : Bool) (name : String) :
    Except KErr Unit × KernelState × List KCall :=
  if name = "" then (.error .emptyName, k, [])
  else if ¬hasPrincipal then (.error (.noPrincipal "RemoveModule" name), k, [])
  else if ¬hasPerm then (.error (.accessDenied "RemoveModule" name), k, [])
  else
    match mapGet k.modules name with
    | none => (.error (.notFound name), k, [])
    | some m =>
      let k2 := { k with
        modules := mapDel k.modules name,
        moduleStates := mapDel k.moduleStates name,
        registryServices := k.registryServices.filter fun p => p.2 ≠ name,
        registryGateways := k.registryGateways.filter fun p => p.2 ≠ name }
      if k.running then
        match m.stopErr with
        | some e =>
          (.error (.stopModule name e),
           { k2 with modules := mapSet k2.modules name m,
                     moduleStates := mapSet k2.moduleStates name true },
           [.stopM name])
        | none => (.ok (), k2, [.stopM name])
      else (.ok (), k2, [])

/-- Translation of kernel.EnableModule: mark enabled; when running,
start the module (the enabled mark is kept even when the start fails). -/
def enableModule (k : KernelState) (hasPrincipal hasPerm : Bool) (name : String) :
    Except KErr Unit × KernelState × List KCall :=
  if ¬hasPrincipal then (.error (.noPrincipal "EnableModule" name), k, [])
  else if ¬hasPerm then (.error (.accessDenied "EnableModule" name), k, [])
  else
    match mapGet k.modules name with
    | none => (.error (.notFound name), k, [])
    | some m =>
      let k1 := { k with moduleStates := mapSet k.moduleStates name true }
      if k1.running then
        match m.startErr with
        | some e => (.error (.startModule name e), k1, [.startM name])
        | none => (.ok (), k1, [.startM name])
      else (.ok (), k1, [])

/-- Translation of kernel.DisableModule: mark disabled; when running,
stop the module. -/
def disableModule (k : KernelState) (hasPrincipal hasPerm : Bool) (name : String) :
    Except KErr Unit × KernelState × List KCall :=
  if ¬hasPrincipal then (.error (.noPrincipal "DisableModule" name), k, [])
  else if ¬hasPerm then (.error (.accessDenied "DisableModule" name), k, [])
  else
    match mapGet k.modules name with
    | none => (.error (.notFound name), k, [])
    | some m =>
      let k1 := { k with moduleStates := mapSet k.moduleStates name false }
      if k1.running then
        match m.stopErr with
        | some e => (.error (.stopModule name e), k1, [.stopM name])
        | none => (.ok (), k1, [.stopM name])
      else (.ok (), k1, [])

/-- Module start pass of kernel.Start: first failing module (name and
error) and the trace of Start calls made (the failed attempt included). -/
def startPhase : List KModule → Option (String × String) × List KCall
  | [] => (none, [])
  | m :: rest =>
    match m.startErr with
    | some e => (some (m.name, e), [.startM m.name])
    | none =>
      let pr := startPhase rest
      (pr.1, .startM m.name :: pr.2)

/-- The rollback loop of the module start pass exactly as written in the
source: walk the FULL startup order from its end, stopping each module
until the failed module itself is reached. -/
def rollbackStops (order : List KModule) (failedName : String) : List KCall :=
  (order.reverse.takeWhile fun m => m.name ≠ failedName).map fun m => .stopM m.name

/-- RegisterServices pass of kernel.Start: threads the registry contents,
stops at the first failure. -/
def regPhase :
    List KModule → List (String × String) →
    Option (String × String) × List (String × String) × List KCall
  | [], reg => (none, reg, [])
  | m :: rest, reg =>
    match m.registerServicesErr with
    | some e => (some (m.name, e), reg, [.registerServices m.name])
    | none =>
      let pr := regPhase rest (registerModuleServices reg m)
      (pr.1, pr.2.1, .registerServices m.name :: pr.2.2)

/-- OnReady pass of kernel.Start: at the first failure the offending
module is stopped (with its shutdownTimeout as the bound) and the pass
aborts. -/
def readyPhase : List KModule → Option (String × String) × List KCall
  | [] => (none, [])
  | m :: rest =>
    match m.onReadyErr with
    | some e => (some (m.name, e), [.onReady m.name, .stopM m.name])
    | none =>
      let pr := readyPhase rest
      (pr.1, .onReady m.name :: pr.2)

/-- Gateway start pass of kernel.Start: each successful start publishes
gateway.started; the pass aborts at the first failure. -/
def gatewayPhase : List KGateway → Option (String × String) × List KCall
  | [] => (none, [])
  | g :: rest =>
    match g.startErr with
    | some e => (some (g.name, e), [.startG g.name])
    | none =>
      let pr := gatewayPhase rest
      (pr.1, .startG g.name :: .publishEvent "gateway.started" g.name :: pr.2)

/-- Best-effort stop of the gateways started before the failed one. -/
def gatewayRollbackStops (gws : List KGateway) (failedName : String) : List KCall :=
  (gws.takeWhile fun g => g.name ≠ failedName).map fun g => .stopG g.name

/-- Translation of kernel.Start: refuse when already running; set
running; snapshot gateways; compute the startup order (reverting to
not-running on a dependency error); run the four passes with the
failure handling of the source: start failure reverts to not-running
and runs the source's rollback loop; RegisterServices failure stops all
modules in reverse order (running is left true, as in the source);
OnReady failure stops the offending module and propagates the error
(running is left true); gateway failure reverts to not-running, stops
the previously started gateways and then all modules in reverse. -/
def kstart {V C : Type} (sv : SemverOps V C) (k : KernelState) :
    Except KErr Unit × KernelState × List KCall :=
  if k.running then (.error .alreadyRunning, k, [])
  else
    let k1 := { k with running := true }
    let gatewaysToStart := k.gateways.map Prod.snd
    match getModuleStartupOrder sv k.modules k.moduleStates with
    | .error e => (.error (.orderErr e), { k1 with running := false }, [])
    | .ok order =>
      let sp := startPhase order
      match sp.1 with
      | some fe =>
        (.error (.startModule fe.1 fe.2), { k1 with running := false },
         sp.2 ++ rollbackStops order fe.1)
      | none =>
        let rp := regPhase order k1.registryServices
        match rp.1 with
        | some fe =>
          (.error (.registerServices fe.1 fe.2),
           { k1 with registryServices := rp.2.1 },
           sp.2 ++ rp.2.2 ++ order.reverse.map fun m => .stopM m.name)
        | none =>
          let k2 := { k1 with registryServices := rp.2.1 }
          let op := readyPhase order
          match op.1 with
          | some fe => (.error (.onReady fe.1 fe.2), k2, sp.2 ++ rp.2.2 ++ op.2)
          | none =>
            let gp := gatewayPhase gatewaysToStart
            match gp.1 with
            | some fe =>
              (.error (.startGateway fe.1 fe.2), { k2 with running := false },
               sp.2 ++ rp.2.2 ++ op.2 ++ gp.2
                 ++ gatewayRollbackStops gatewaysToStart fe.1
                 ++ order.reverse.map fun m => .stopM m.name)
            | none => (.ok (), k2, sp.2 ++ rp.2.2 ++ op.2 ++ gp.2)

/-- Translation of kernel.Stop: refuse when not running; clear running;
compute the reverse dependency order (an analysis error is logged and an
empty order used); stop all gateways then the ordered modules,
collecting the first error; maps and registry are not mutated. -/
def kstop {V C : Type} (sv : SemverOps V C) (k : KernelState) :
    Except KErr Unit × KernelState × List KCall :=
  if ¬k.running then (.error .notRunning, k, [])
  else
    let k1 := { k with running := false }
    let ordered :=
      match getModuleShutdownOrder sv k.modules k.moduleStates with
      | .error _ => []
      | .ok l => l
    let gatewaysToStop := k.gateways.map Prod.snd
    let gErr := (gatewaysToStop.filterMap fun g =>
      g.stopErr.map fun e => KErr.stopGateway g.name e).head?
    let mErr := (ordered.filterMap fun m =>
      m.stopErr.map fun e => KErr.stopModule m.name e).head?
    let res : Except KErr Unit :=
      match gErr with
      | some e => .error e
      | none => match mErr with
        | some e => .error e
        | none => .ok ()
    (res, k1,
     gatewaysToStop.map (fun g => .stopG g.name)
       ++ ordered.map fun m => .stopM m.name)

/-- Kernel API calls, for describing an operation history. -/
inductive KOp where
  | add (hasPrincipal hasPerm : Bool) (m : KModule)
  | remove (hasPrincipal hasPerm : Bool) (name : String)
  | enable (hasPrincipal hasPerm : Bool) (name : String)
  | disable (hasPrincipal hasPerm : Bool) (name : String)
  | start
  | stop

/-- The state transition of one kernel API call. -/
def kstep {V C : Type} (sv : SemverOps V C) (k : KernelState) : KOp → KernelState
  | .add hp hq m => (addModule k hp hq m).2.1
  | .remove hp hq n => (removeModule k hp hq n).2.1
  | .enable hp hq n => (enableModule k hp hq n).2.1
  | .disable hp hq n => (disableModule k hp hq n).2.1
  | .start => (kstart sv k).2.1
  | .stop => (kstop sv k).2.1

/-- The kernel state after an operation history. -/
def krun {V C : Type} (sv : SemverOps V C) (k : KernelState) (ops : List KOp) :
    KernelState :=
  ops.foldl (kstep sv) k

/-- Whether an operation disables or removes the named module. -/
def opTargets (op : KOp) (n : String) : Bool :=
  match op with
  | .remove _ _ n' => decide (n' = n)
  | .disable _ _ n' => decide (n' = n)
  | _ => false

/-! ## Concrete fixtures for witnesses and counterexamples -/

/-- Trivial semver model: every version and constraint parses and every
constraint is satisfied. -/
def svUnit : SemverOps Unit Unit :=
  { parseVersion := fun _ => some (), parseConstraint := fun _ => some (),
    check := fun _ _ => true }

/-- A module whose callbacks all succeed. -/
def okModule (name : String) (deps : List (String × String)) : KModule :=
  { name := name, version := "1.0.0", dependencies := deps,
    shutdownTimeout := 5, onLoadErr := none, configureErr := none,
    startErr := none, registerServicesErr := none, onReadyErr := none,
    stopErr := none, services := [] }

/-- A gateway whose callbacks all succeed. -/
def okGateway (name : String) : KGateway :=
  { name := name, shutdownTimeout := 5, configureErr := none,
    startErr := none, stopErr := none }

/-- A kernel state holding the given modules (all enabled) and gateways. -/
def kernelWith (mods : List KModule) (gws : List KGateway) (running : Bool) :
    KernelState :=
  { modules := mods.map fun m => (m.name, m),
    gateways := gws.map fun g => (g.name, g),
    moduleStates := mods.map fun m => (m.name, true),
    running := running, registryServices := [], registryGateways := [],
    moduleConfigs := [], gatewayConfigs := [] }

/-- A module whose OnReady callback fails. -/
def modMReady : KModule := { okModule "M" [] with onReadyErr := some "oops" }

/-- Kernel holding only modMReady, not running. -/
def kernelMReady : KernelState := kernelWith [modMReady] [] false

/-- Kernel holding modMReady and one gateway, not running. -/
def kernelMReadyG : KernelState := kernelWith [modMReady] [okGateway "G"] false

/-- A module whose OnLoad callback fails. -/
def modLoadFail : KModule := { okModule "L" [] with onLoadErr := some "loadboom" }

/-- A module whose Configure callback fails. -/
def modCfgFail : KModule := { okModule "M" [] with configureErr := some "cfgboom" }

/-- An empty, non-running kernel that has a config slice for module M. -/
def kernelCfg : KernelState :=
  { kernelWith [] [] false with moduleConfigs := ["M"] }

/-- A module whose Stop callback fails. -/
def modStopFail : KModule := { okModule "S" [] with stopErr := some "stopboom" }

/-- A running kernel holding modStopFail with one service registered to
it. -/
def kernelStopFail : KernelState :=
  { kernelWith [modStopFail] [] true with registryServices := [("svc", "S")] }

/-- A registry with one service named svc owned by module mod. -/
def regFix : RegistryState Nat :=
  { services := [("svc", { service := 7, moduleName := "mod" })], gateways := [] }

/-- A concrete principal. -/
def pFix : Principal := { pid := "u1".data, ptype := "user".data, roles := [] }

/-! ## Theorems -/

theorem isAllowedChar_underscore : isAllowedChar '_' = false := by decide

/-- Per-character replacement maps disallowed characters to underscores,
which are themselves disallowed, so the runs of disallowed characters
are preserved positionally and the run-collapsing sanitizer gives the
same output. -/
theorem sanitizeAux_percharReplace (l : List Char) :
    ∀ b, sanitizeAux b (percharReplace l) = sanitizeAux b l := by
  induction l with
  | nil => intro b; rfl
  | cons c rest ih =>
    intro b
    by_cases h : isAllowedChar c = true
    · simp only [percharReplace, List.map_cons, h, if_true, sanitizeAux]
      exact congrArg (c :: ·) (ih false)
    · have hc : isAllowedChar c = false := by
        cases hx : isAllowedChar c with
        | false => rfl
        | true => exact absurd hx h
      cases b with
      | false =>
        simp only [percharReplace, List.map_cons, hc, if_false, sanitizeAux,
          isAllowedChar_underscore, Bool.false_eq_true]
        exact congrArg ('_' :: ·) (ih true)
      | true =>
        simp only [percharReplace, List.map_cons, hc, if_false, sanitizeAux,
          isAllowedChar_underscore, Bool.false_eq_true]
        exact ih true

/-- The sanitizer is idempotent: its output contains no run of two or
more disallowed characters, and an isolated underscore re-sanitizes to
itself. -/
theorem sanitizeAux_idem (l : List Char) :
    ∀ b, sanitizeAux b (sanitizeAux b l) = sanitizeAux b l := by
  induction l with
  | nil => intro b; rfl
  | cons c rest ih =>
    intro b
    by_cases h : isAllowedChar c = true
    · simp [sanitizeAux, h]
      exact ih false
    · have hc : isAllowedChar c = false := by
        cases hx : isAllowedChar c with
        | false => rfl
        | true => exact absurd hx h
      cases b with
      | false =>
        simp [sanitizeAux, hc, isAllowedChar_underscore]
        exact ih true
      | true =>
        simp [sanitizeAux, hc]
        exact ih true

/-- Claim C7: for every dynamic permission component and principal, each
permission-derived helper decides the same on the component and on its
per-character sanitized image, and the sanitization function is
idempotent. -/
theorem permission_helpers_sanitize_invariant
    (provider : Option RBACProvider) (p : Principal) (s : List Char) :
    canPublishEvent provider p s = canPublishEvent provider p (percharReplace s) ∧
    canSubscribeEvent provider p s = canSubscribeEvent provider p (percharReplace s) ∧
    canAccessConfig provider p s = canAccessConfig provider p (percharReplace s) ∧
    canReloadModule provider p s = canReloadModule provider p (percharReplace s) ∧
    sanitizePermissionComponent (sanitizePermissionComponent s) =
      sanitizePermissionComponent s := by
  have hkey : sanitizePermissionComponent (percharReplace s) =
      sanitizePermissionComponent s :=
    sanitizeAux_percharReplace s false
  refine ⟨?_, ?_, ?_, ?_, sanitizeAux_idem s false⟩ <;>
    simp [canPublishEvent, canSubscribeEvent, canAccessConfig,
      canReloadModule, hkey]

/-- Claim C6 (code behavior at the failing input): a principal whose only
role name is the wildcard "foo.*" is granted the permission "foobar",
although "foobar" does not begin with "foo." — the wildcard check in
HasPermission compares only the stem before ".*" and never requires the
following dot.  This contradicts HasPermission's own documentation
("grants access to any permission starting with \"core.module.\""). -/
theorem hasPermission_wildcard_ignores_dot :
    hasPermission (some fun _ => none)
      { pid := "p1".data, ptype := "user".data, roles := ["foo.*".data] }
      "foobar".data = true := by decide

/-! ### Kahn loop: fuel adequacy -/

theorem countPos_mapSet (l : List (String × Int)) (k : String) (v : Int) :
    countPos (mapSet l k v) + posInd ((mapGet l k).getD 0) =
      countPos l + posInd v := by
  induction l with
  | nil => simp [mapSet, mapGet, countPos, posInd]
  | cons p rest ih =>
    cases p with
    | mk k' v' =>
      by_cases h : k' = k
      · subst h
        simp [mapSet, mapGet, countPos]
        omega
      · simp only [mapSet, if_neg h, mapGet, if_neg h, countPos]
        omega

theorem processSuccs_measure (enabled : List (String × KModule))
    (succs : List String) :
    ∀ inDeg, countPos (processSuccs enabled succs inDeg).1 +
      (processSuccs enabled succs inDeg).2.length ≤ countPos inDeg := by
  induction succs with
  | nil => intro inDeg; simp [processSuccs]
  | cons s rest ih =>
    intro inDeg
    have hset := countPos_mapSet inDeg s ((mapGet inDeg s).getD 0 - 1)
    have hrec := ih (mapSet inDeg s ((mapGet inDeg s).getD 0 - 1))
    simp only [processSuccs]
    by_cases hd : (mapGet inDeg s).getD 0 - 1 = 0
    · have hold : (mapGet inDeg s).getD 0 = 1 := by omega
      rw [if_pos hd]
      have hpos : posInd ((mapGet inDeg s).getD 0) = 1 := by
        simp [posInd, hold]
      have hzero : posInd ((mapGet inDeg s).getD 0 - 1) = 0 := by
        simp [posInd, hd]
      cases hm : mapGet enabled s with
      | some sm =>
        simp only [hm, List.length_cons]
        omega
      | none =>
        simp only [hm]
        omega
    · rw [if_neg hd]
      by_cases hpos : 0 < (mapGet inDeg s).getD 0
      · have e1 : posInd ((mapGet inDeg s).getD 0) = 1 := by simp [posInd, hpos]
        have e2 : posInd ((mapGet inDeg s).getD 0 - 1) = 1 := by
          have h3 : 0 < (mapGet inDeg s).getD 0 - 1 := by omega
          simp [posInd, h3]
        rw [e1, e2] at hset
        omega
      · have e1 : posInd ((mapGet inDeg s).getD 0) = 0 := by simp [posInd, hpos]
        have e2 : posInd ((mapGet inDeg s).getD 0 - 1) = 0 := by
          have h3 : ¬ 0 < (mapGet inDeg s).getD 0 - 1 := by omega
          simp [posInd, h3]
        rw [e1, e2] at hset
        omega

theorem kahnLoopFuel_irrel (enabled : List (String × KModule))
    (graph : List (String × List String)) :
    ∀ f1 f2 queue inDeg, queue.length + countPos inDeg ≤ f1 →
      queue.length + countPos inDeg ≤ f2 →
      kahnLoopFuel enabled graph f1 queue inDeg =
        kahnLoopFuel enabled graph f2 queue inDeg := by
  intro f1
  induction f1 with
  | zero =>
    intro f2 queue inDeg h1 _
    have hq : queue = [] := by
      cases queue with
      | nil => rfl
      | cons m qrest => simp at h1
    subst hq
    cases f2 <;> rfl
  | succ f1' ih =>
    intro f2 queue inDeg h1 h2
    cases queue with
    | nil => cases f2 <;> rfl
    | cons m qrest =>
      have hf2 : ∃ f2', f2 = f2' + 1 := by
        cases f2 with
        | zero => simp at h2
        | succ n => exact ⟨n, rfl⟩
      obtain ⟨f2', rfl⟩ := hf2
      simp only [kahnLoopFuel]
      have hm := processSuccs_measure enabled
        ((mapGet graph m.name).getD []) inDeg
      have hlen : (qrest ++ (processSuccs enabled
          ((mapGet graph m.name).getD []) inDeg).2).length +
          countPos (processSuccs enabled
            ((mapGet graph m.name).getD []) inDeg).1 ≤ f1' := by
        simp only [List.length_append, List.length_cons] at *
        omega
      have hlen2 : (qrest ++ (processSuccs enabled
          ((mapGet graph m.name).getD []) inDeg).2).length +
          countPos (processSuccs enabled
            ((mapGet graph m.name).getD []) inDeg).1 ≤ f2' := by
        simp only [List.length_append, List.length_cons] at *
        omega
      rw [ih _ _ _ hlen hlen2]

theorem kahnLoop_nil (enabled : List (String × KModule))
    (graph : List (String × List String)) (inDeg : List (String × Int)) :
    kahnLoop enabled graph [] inDeg = [] := by
  unfold kahnLoop
  cases h : countPos inDeg <;> simp [kahnLoopFuel, h]

theorem kahnLoop_cons (enabled : List (String × KModule))
    (graph : List (String × List String)) (m : KModule)
    (qrest : List KModule) (inDeg : List (String × Int)) :
    kahnLoop enabled graph (m :: qrest) inDeg =
      m :: kahnLoop enabled graph
        (qrest ++ (processSuccs enabled ((mapGet graph m.name).getD []) inDeg).2)
        (processSuccs enabled ((mapGet graph m.name).getD []) inDeg).1 := by
  unfold kahnLoop
  simp only [List.length_cons, Nat.add_right_comm, kahnLoopFuel]
  congr 1
  apply kahnLoopFuel_irrel
  · have := processSuccs_measure enabled ((mapGet graph m.name).getD []) inDeg
    simp only [List.length_append]
    omega
  · exact Nat.le_refl _

/-! ### Association-list lemmas -/

theorem mapGet_mapSet_self {κ β : Type} [DecidableEq κ]
    (l : List (κ × β)) (k : κ) (v : β) : mapGet (mapSet l k v) k = some v := by
  induction l with
  | nil => simp [mapSet, mapGet]
  | cons p rest ih =>
    by_cases h : p.1 = k
    · cases p
      simp only at h
      subst h
      simp [mapSet, mapGet]
    · cases p
      simp only at h
      simp [mapSet, mapGet, h, ih]

theorem mapGet_mapSet_ne {κ β : Type} [DecidableEq κ]
    (l : List (κ × β)) (k k' : κ) (v : β) (h : k ≠ k') :
    mapGet (mapSet l k v) k' = mapGet l k' := by
  induction l with
  | nil => simp [mapSet, mapGet, h]
  | cons p rest ih =>
    by_cases hp : p.1 = k
    · cases p
      simp only at hp
      subst hp
      simp [mapSet, mapGet, h]
    · cases p
      simp only at hp
      simp [mapSet, mapGet, hp, ih]

theorem mapGet_mapDel_self {κ β : Type} [DecidableEq κ]
    (l : List (κ × β)) (k : κ) : mapGet (mapDel l k) k = none := by
  induction l with
  | nil => rfl
  | cons p rest ih =>
    cases p with
    | mk a b =>
      by_cases ha : a = k
      · simpa [mapDel, ha] using ih
      · simpa [mapDel, mapGet, ha] using ih

theorem mapGet_mapDel_ne {κ β : Type} [DecidableEq κ]
    (l : List (κ × β)) (k k' : κ) (h : k ≠ k') :
    mapGet (mapDel l k) k' = mapGet l k' := by
  induction l with
  | nil => rfl
  | cons p rest ih =>
    cases p with
    | mk a b =>
      by_cases ha : a = k
      · subst ha
        simp [mapDel, mapGet, ih, h]
      · simp only [mapDel, if_neg ha, mapGet, ih]

/-! ### Claim C5: start and stop guards do not mutate state -/

/-- Claim C5: Start on a running kernel returns the already-running error
and leaves the state untouched; Stop on a non-running kernel returns the
not-running error and leaves the state untouched. -/
theorem start_stop_state_guards {V C : Type} (sv : SemverOps V C)
    (k : KernelState) :
    (k.running = true → kstart sv k = (.error .alreadyRunning, k, [])) ∧
    (k.running = false → kstop sv k = (.error .notRunning, k, [])) := by
  constructor
  · intro h
    simp [kstart, h]
  · intro h
    simp [kstop, h]

theorem start_stop_state_guards_witness :
    kstart svUnit (kernelWith [] [] true) =
      (.error .alreadyRunning, kernelWith [] [] true, []) ∧
    kstop svUnit (kernelWith [] [] false) =
      (.error .notRunning, kernelWith [] [] false, []) :=
  ⟨(start_stop_state_guards svUnit (kernelWith [] [] true)).1 rfl,
   (start_stop_state_guards svUnit (kernelWith [] [] false)).2 rfl⟩

/-! ### Claim C3: rollback after a module start failure stops the wrong
modules -/

/-- Claim C3 (code behavior at the failing input): with startup order
A, B, C and B failing to start, the source's rollback loop walks the
full order from the end and breaks at B, so it calls Stop only on C —
which was never started — and never on A, the module that was started.
This contradicts the loop's own comment ("best-effort stop
already-started modules in reverse order") and the spec. -/
theorem start_failure_rollback_stops_wrong_modules :
    kstart svUnit (kernelWith
      [okModule "A" [], { okModule "B" [] with startErr := some "boom" },
       okModule "C" []] [] false) =
      (.error (.startModule "B" "boom"),
       kernelWith
         [okModule "A" [], { okModule "B" [] with startErr := some "boom" },
          okModule "C" []] [] false,
       [.startM "A", .startM "B", .stopM "C"]) ∧
    KCall.stopM "A" ∉ (kstart svUnit (kernelWith
      [okModule "A" [], { okModule "B" [] with startErr := some "boom" },
       okModule "C" []] [] false)).2.2 := by decide

/-! ### Claim C2: an OnReady failure is fatal to Start -/

theorem startPhase_all_ok (order : List KModule)
    (h : ∀ x ∈ order, x.startErr = none) :
    startPhase order = (none, order.map fun x => .startM x.name) := by
  induction order with
  | nil => rfl
  | cons m rest ih =>
    have hm : m.startErr = none := h m (by simp)
    have hrest := ih fun x hx => h x (by simp [hx])
    simp [startPhase, hm, hrest]

theorem regPhase_all_ok (order : List KModule)
    (h : ∀ x ∈ order, x.registerServicesErr = none) :
    ∀ reg, (regPhase order reg).1 = none ∧
      (regPhase order reg).2.2 = order.map fun x => .registerServices x.name := by
  induction order with
  | nil => intro reg; exact ⟨rfl, rfl⟩
  | cons m rest ih =>
    intro reg
    have hm : m.registerServicesErr = none := h m (by simp)
    have hrest := ih (fun x hx => h x (by simp [hx]))
      (registerModuleServices reg m)
    simp [regPhase, hm, hrest.1, hrest.2]

theorem readyPhase_split (pre : List KModule) (m : KModule)
    (post : List KModule) (e : String)
    (hpre : ∀ x ∈ pre, x.onReadyErr = none) (hm : m.onReadyErr = some e) :
    readyPhase (pre ++ m :: post) =
      (some (m.name, e),
       (pre.map fun x => .onReady x.name) ++ [.onReady m.name, .stopM m.name]) := by
  induction pre with
  | nil => simp [readyPhase, hm]
  | cons x rest ih =>
    have hx : x.onReadyErr = none := hpre x (by simp)
    have hrest := ih fun y hy => hpre y (by simp [hy])
    simp [readyPhase, hx, hrest]

/-- Claim C2 (counterexample): with one enabled module M whose OnReady
fails and one gateway G, Start returns the wrapped OnReady error and the
gateway is never started, contradicting the claim that an onReady error
is not fatal to Start and that gateway starts still happen. -/
theorem onReady_failure_fails_start_cex :
    (kstart svUnit kernelMReadyG).1 = .error (.onReady "M" "oops") ∧
    KCall.startG "G" ∉ (kstart svUnit kernelMReadyG).2.2 := by decide

/-- Claim C2 (amended): when every module in the Start order starts and
registers its services successfully and module m is the first whose
OnReady fails, the kernel stops m individually (bounded by its
shutdownTimeout), makes no further OnReady calls and no gateway starts,
leaves the running flag true, and Start returns the wrapped OnReady
error. -/
theorem onReady_failure_propagates {V C : Type} (sv : SemverOps V C)
    (k : KernelState) (order pre post : List KModule) (m : KModule) (e : String)
    (hrun : k.running = false)
    (horder : getModuleStartupOrder sv k.modules k.moduleStates = .ok order)
    (hsplit : order = pre ++ m :: post)
    (hstart : ∀ x ∈ order, x.startErr = none)
    (hreg : ∀ x ∈ order, x.registerServicesErr = none)
    (hpre : ∀ x ∈ pre, x.onReadyErr = none)
    (hm : m.onReadyErr = some e) :
    kstart sv k =
      (.error (.onReady m.name e),
       { k with running := true,
                registryServices := (regPhase order k.registryServices).2.1 },
       (order.map fun x => .startM x.name)
         ++ (order.map fun x => .registerServices x.name)
         ++ ((pre.map fun x => .onReady x.name)
              ++ [.onReady m.name, .stopM m.name])) := by
  subst hsplit
  have hsp := startPhase_all_ok _ hstart
  have hrp := regPhase_all_ok _ hreg k.registryServices
  have hop := readyPhase_split pre m post e hpre hm
  have hrp1 := hrp.1
  have hrp2 := hrp.2
  simp only [kstart, hrun, Bool.false_eq_true, if_false, horder, hsp, hop]
  cases hx : (regPhase (pre ++ m :: post) k.registryServices).1 with
  | some fe => rw [hx] at hrp1; exact absurd hrp1 (by simp)
  | none =>
    simp only [hrp2]

theorem onReady_failure_propagates_witness :
    kstart svUnit kernelMReady =
      (.error (.onReady "M" "oops"),
       { kernelMReady with
           running := true,
           registryServices :=
             (regPhase [modMReady] kernelMReady.registryServices).2.1 },
       ([modMReady].map fun x => .startM x.name)
         ++ ([modMReady].map fun x => .registerServices x.name)
         ++ (([] : List KModule).map (fun x => .onReady x.name)
              ++ [.onReady modMReady.name, .stopM modMReady.name])) :=
  onReady_failure_propagates svUnit kernelMReady [modMReady] [] [] modMReady
    "oops" rfl (by decide) rfl (by decide) (by decide) (by decide) rfl

/-! ### Claim C4: partial-failure restoration in AddModule/RemoveModule -/

/-- Claim C4 (counterexample): a module whose Configure fails during
AddModule is NOT removed from the module map — AddModule returns the
wrapped configure error but leaves both the module-map entry and the
enabled-state entry in place, contradicting the claim that the prior
state is restored. -/
theorem addModule_partial_failure_cex :
    (addModule kernelCfg true true modCfgFail).1 =
      .error (.configure "M" "cfgboom") ∧
    mapGet (addModule kernelCfg true true modCfgFail).2.1.modules "M" =
      some modCfgFail ∧
    mapGet (addModule kernelCfg true true modCfgFail).2.1.moduleStates "M" =
      some true := by decide

/-- Claim C4 (amended): what the code actually restores.  OnLoad failure
during AddModule deletes the module-map entry but leaves the
enabled-state entry behind; Configure failure leaves the module in both
maps; Stop failure during RemoveModule reinstates the module-map and
enabled-state entries but the services the module owned stay
unregistered. -/
theorem add_remove_partial_failure_behavior (k : KernelState) (m : KModule)
    (name e : String) :
    (m.name ≠ "" → mapGet k.modules m.name = none → m.onLoadErr = some e →
      (addModule k true true m).1 = .error (.onLoad m.name e) ∧
      mapGet (addModule k true true m).2.1.modules m.name = none ∧
      mapGet (addModule k true true m).2.1.moduleStates m.name = some true) ∧
    (m.name ≠ "" → mapGet k.modules m.name = none → m.onLoadErr = none →
      k.moduleConfigs.contains m.name = true → m.configureErr = some e →
      (addModule k true true m).1 = .error (.configure m.name e) ∧
      mapGet (addModule k true true m).2.1.modules m.name = some m ∧
      mapGet (addModule k true true m).2.1.moduleStates m.name = some true) ∧
    (name ≠ "" → k.running = true → mapGet k.modules name = some m →
      m.stopErr = some e →
      (removeModule k true true name).1 = .error (.stopModule name e) ∧
      mapGet (removeModule k true true name).2.1.modules name = some m ∧
      mapGet (removeModule k true true name).2.1.moduleStates name = some true ∧
      (removeModule k true true name).2.1.registryServices =
        k.registryServices.filter fun p => p.2 ≠ name) := by
  refine ⟨?_, ?_, ?_⟩
  · intro hname hdup hload
    simp only [addModule, if_neg hname, hdup, hload]
    simp [mapGet_mapDel_self, mapGet_mapSet_self]
  · intro hname hdup hload hcfg hconf
    simp only [addModule, if_neg hname, hdup, hload, hcfg, hconf]
    simp [mapGet_mapSet_self]
  · intro hname hrun hm hstop
    simp only [removeModule, if_neg hname, hm, hrun, hstop]
    simp [mapGet_mapSet_self]

theorem add_remove_partial_failure_behavior_witness :
    ((addModule (kernelWith [] [] false) true true modLoadFail).1 =
        .error (.onLoad "L" "loadboom") ∧
      mapGet (addModule (kernelWith [] [] false) true true
        modLoadFail).2.1.modules "L" = none ∧
      mapGet (addModule (kernelWith [] [] false) true true
        modLoadFail).2.1.moduleStates "L" = some true) ∧
    ((addModule kernelCfg true true modCfgFail).1 =
        .error (.configure "M" "cfgboom") ∧
      mapGet (addModule kernelCfg true true modCfgFail).2.1.modules "M" =
        some modCfgFail ∧
      mapGet (addModule kernelCfg true true modCfgFail).2.1.moduleStates "M" =
        some true) ∧
    ((removeModule kernelStopFail true true "S").1 =
        .error (.stopModule "S" "stopboom") ∧
      mapGet (removeModule kernelStopFail true true "S").2.1.modules "S" =
        some modStopFail ∧
      mapGet (removeModule kernelStopFail true true "S").2.1.moduleStates "S" =
        some true ∧
      (removeModule kernelStopFail true true "S").2.1.registryServices =
        kernelStopFail.registryServices.filter fun p => p.2 ≠ "S") :=
  ⟨(add_remove_partial_failure_behavior (kernelWith [] [] false) modLoadFail
      "L" "loadboom").1 (by decide) (by decide) (by decide),
   (add_remove_partial_failure_behavior kernelCfg modCfgFail
      "M" "cfgboom").2.1 (by decide) (by decide) (by decide) (by decide)
      (by decide),
   (add_remove_partial_failure_behavior kernelStopFail modStopFail
      "S" "stopboom").2.2 (by decide) (by decide) (by decide) (by decide)⟩

/-! ### Claim C10: modules added successfully are enabled by default -/

theorem mapGet_eq_some_mem {κ β : Type} [DecidableEq κ]
    (l : List (κ × β)) (k : κ) (v : β) (h : mapGet l k = some v) : (k, v) ∈ l := by
  induction l with
  | nil => simp [mapGet] at h
  | cons p rest ih =>
    cases p with
    | mk a b =>
      by_cases ha : a = k
      · subst ha
        have hbv : b = v := by simpa [mapGet] using h
        simp [hbv]
      · simp only [mapGet, if_neg ha] at h
        simp [ih h]

theorem addModule_ok_enabled (k : KernelState) (hp hq : Bool) (m : KModule)
    (hok : (addModule k hp hq m).1 = .ok ()) :
    mapGet (addModule k hp hq m).2.1.modules m.name = some m ∧
    mapGet (addModule k hp hq m).2.1.moduleStates m.name = some true := by
  rcases hr : addModule k hp hq m with ⟨res, st, tr⟩
  rw [hr] at hok
  simp only at hok ⊢
  simp only [addModule, addModuleStartPhase] at hr
  repeat' split at hr
  all_goals
    cases hr
  all_goals
    first
      | exact ⟨mapGet_mapSet_self _ _ _, mapGet_mapSet_self _ _ _⟩
      | simp at hok

theorem kstep_preserves_enabled {V C : Type} (sv : SemverOps V C)
    (s : KernelState) (op : KOp) (n : String) (m : KModule)
    (hop : opTargets op n = false)
    (h1 : mapGet s.modules n = some m)
    (h2 : mapGet s.moduleStates n = some true) :
    mapGet (kstep sv s op).modules n = some m ∧
    mapGet (kstep sv s op).moduleStates n = some true := by
  cases op with
  | add hp hq m' =>
    by_cases hn : m'.name = n
    · have hdup : (mapGet s.modules m'.name).isSome = true := by
        rw [hn, h1]; rfl
      simp only [kstep, addModule, addModuleStartPhase]
      repeat' split
      all_goals exact ⟨h1, h2⟩
    · have hmods : ∀ l : List (String × KModule),
          mapGet (mapSet l m'.name m') n = mapGet l n :=
        fun l => mapGet_mapSet_ne l m'.name n m' hn
      have hdel : ∀ l : List (String × KModule),
          mapGet (mapDel l m'.name) n = mapGet l n :=
        fun l => mapGet_mapDel_ne l m'.name n hn
      have hstates : ∀ l : List (String × Bool),
          mapGet (mapSet l m'.name true) n = mapGet l n :=
        fun l => mapGet_mapSet_ne l m'.name n true hn
      simp only [kstep, addModule, addModuleStartPhase]
      repeat' split
      all_goals
        refine ⟨?_, ?_⟩ <;> simp only [hmods, hdel, hstates] <;>
          first | exact h1 | exact h2
  | remove hp hq n' =>
    have hn : n' ≠ n := by
      simpa [opTargets] using hop
    have hmods : ∀ l : List (String × KModule),
        mapGet (mapSet l n' m) n = mapGet l n :=
      fun l => mapGet_mapSet_ne l n' n m hn
    have hdel : ∀ l : List (String × KModule),
        mapGet (mapDel l n') n = mapGet l n :=
      fun l => mapGet_mapDel_ne l n' n hn
    have hstates : ∀ l : List (String × Bool),
        mapGet (mapSet l n' true) n = mapGet l n :=
      fun l => mapGet_mapSet_ne l n' n true hn
    have hstatesDel : ∀ l : List (String × Bool),
        mapGet (mapDel l n') n = mapGet l n :=
      fun l => mapGet_mapDel_ne l n' n hn
    simp only [kstep, removeModule]
    repeat' split
    all_goals
      refine ⟨?_, ?_⟩ <;>
        simp only [mapGet_mapSet_ne _ n' n _ hn, hdel, hstatesDel] <;>
        first | exact h1 | exact h2
  | enable hp hq n' =>
    have hstates : mapGet (mapSet s.moduleStates n' true) n = some true := by
      by_cases hn : n' = n
      · subst hn; exact mapGet_mapSet_self _ _ _
      · rw [mapGet_mapSet_ne _ n' n true hn]; exact h2
    simp only [kstep, enableModule]
    repeat' split
    all_goals first | exact ⟨h1, h2⟩ | exact ⟨h1, hstates⟩
  | disable hp hq n' =>
    have hn : n' ≠ n := by
      simpa [opTargets] using hop
    have hstates : mapGet (mapSet s.moduleStates n' false) n = some true := by
      rw [mapGet_mapSet_ne _ n' n false hn]; exact h2
    simp only [kstep, disableModule]
    repeat' split
    all_goals first | exact ⟨h1, h2⟩ | exact ⟨h1, hstates⟩
  | start =>
    simp only [kstep, kstart]
    repeat' split
    all_goals exact ⟨h1, h2⟩
  | stop =>
    simp only [kstep, kstop]
    repeat' split
    all_goals exact ⟨h1, h2⟩

theorem krun_preserves_enabled {V C : Type} (sv : SemverOps V C)
    (ops : List KOp) :
    ∀ (s : KernelState) (n : String) (m : KModule),
      (∀ op ∈ ops, opTargets op n = false) →
      mapGet s.modules n = some m → mapGet s.moduleStates n = some true →
      mapGet (krun sv s ops).modules n = some m ∧
      mapGet (krun sv s ops).moduleStates n = some true := by
  induction ops with
  | nil => intro s n m _ h1 h2; exact ⟨h1, h2⟩
  | cons op rest ih =>
    intro s n m hops h1 h2
    have hstep := kstep_preserves_enabled sv s op n m
      (hops op (by simp)) h1 h2
    exact ih (kstep sv s op) n m (fun x hx => hops x (by simp [hx]))
      hstep.1 hstep.2

/-- Claim C10: a module registered successfully through AddModule is
enabled by default; after any further operations that do not disable or
remove it, it is still present and enabled, hence contained in the
enabled-module snapshot that a later Start computes and starts. -/
theorem addModule_enabled_by_default {V C : Type} (sv : SemverOps V C)
    (k : KernelState) (hp hq : Bool) (m : KModule) (ops : List KOp)
    (hok : (addModule k hp hq m).1 = .ok ())
    (hops : ∀ op ∈ ops, opTargets op m.name = false) :
    mapGet (krun sv (addModule k hp hq m).2.1 ops).modules m.name = some m ∧
    mapGet (krun sv (addModule k hp hq m).2.1 ops).moduleStates m.name
      = some true ∧
    (m.name, m) ∈ enabledSnapshot (krun sv (addModule k hp hq m).2.1 ops) := by
  have hbase := addModule_ok_enabled k hp hq m hok
  have hrun := krun_preserves_enabled sv ops (addModule k hp hq m).2.1
    m.name m hops hbase.1 hbase.2
  refine ⟨hrun.1, hrun.2, ?_⟩
  have hmem := mapGet_eq_some_mem _ _ _ hrun.1
  simp only [enabledSnapshot, List.mem_filter]
  exact ⟨hmem, by simp [hrun.2]⟩

theorem addModule_enabled_by_default_witness :
    mapGet (krun svUnit (addModule (kernelWith [] [] false) true true
      (okModule "A" [])).2.1 [KOp.enable true true "B"]).modules "A" =
        some (okModule "A" []) ∧
    mapGet (krun svUnit (addModule (kernelWith [] [] false) true true
      (okModule "A" [])).2.1 [KOp.enable true true "B"]).moduleStates "A" =
        some true ∧
    ("A", okModule "A" []) ∈ enabledSnapshot (krun svUnit
      (addModule (kernelWith [] [] false) true true
        (okModule "A" [])).2.1 [KOp.enable true true "B"]) := by
  have h := addModule_enabled_by_default svUnit (kernelWith [] [] false)
    true true (okModule "A" []) [KOp.enable true true "B"]
    (by decide) (by decide)
  simpa using h

/-! ### Claim C8: GetService returns the value exactly under
registration, principal presence and authorization; otherwise the
matching error; the registry is unchanged -/

/-- Claim C8: getService returns the stored value iff the service is
registered, a principal is present, and the access controller grants
service.(owningModule).(name).access; a missing name yields not-found, a
missing principal or failed check yields a security error; the registry
state is unchanged in every case. -/
theorem getService_access_decision {α : Type} (ac : Principal → List Char → Bool)
    (r : RegistryState α) (pOpt : Option Principal) (name : String) :
    (∀ v : α, (getService ac r pOpt name).1 = .ok v ↔
      ∃ entry, mapGet r.services name = some entry ∧ v = entry.service ∧
        ∃ p, pOpt = some p ∧
          ac p (servicePermission entry.moduleName name) = true) ∧
    (mapGet r.services name = none →
      (getService ac r pOpt name).1 = .error (.notFound name)) ∧
    (∀ entry, mapGet r.services name = some entry → pOpt = none →
      (getService ac r pOpt name).1 = .error (.noPrincipal name)) ∧
    (∀ entry p, mapGet r.services name = some entry → pOpt = some p →
      ac p (servicePermission entry.moduleName name) = false →
      (getService ac r pOpt name).1 =
        .error (.unauthorized p.pid p.ptype name
          (servicePermission entry.moduleName name))) ∧
    (getService ac r pOpt name).2 = r := by
  refine ⟨?_, ?_, ?_, ?_, ?_⟩
  · intro v
    constructor
    · intro h
      cases hentry : mapGet r.services name with
      | none => simp [getService, hentry] at h
      | some entry =>
        cases hp : pOpt with
        | none => simp [getService, hentry, hp] at h
        | some p =>
          by_cases hac : ac p (servicePermission entry.moduleName name) = true
          · have hv : v = entry.service := by
              have := h
              simp [getService, hentry, hp, hac] at this
              exact this.symm
            exact ⟨entry, rfl, hv, p, rfl, hac⟩
          · simp [getService, hentry, hp, hac] at h
    · rintro ⟨entry, hentry, hv, p, hp, hac⟩
      simp [getService, hentry, hp, hac, hv]
  · intro hnone
    simp [getService, hnone]
  · intro entry hentry hp
    simp [getService, hentry, hp]
  · intro entry p hentry hp hac
    simp [getService, hentry, hp, hac]
  · cases hentry : mapGet r.services name with
    | none => simp [getService, hentry]
    | some entry =>
      cases hp : pOpt with
      | none => simp [getService, hentry, hp]
      | some p =>
        by_cases hac : ac p (servicePermission entry.moduleName name) = true <;>
          simp [getService, hentry, hp, hac]

theorem getService_access_decision_witness :
    (getService (fun _ _ => true) regFix (some pFix) "svc").1 = .ok 7 ∧
    (getService (fun _ _ => true) regFix (some pFix) "absent").1 =
      .error (.notFound "absent") ∧
    (getService (fun _ _ => false) regFix (some pFix) "svc").1 =
      .error (.unauthorized pFix.pid pFix.ptype "svc"
        (servicePermission "mod" "svc")) :=
  ⟨((getService_access_decision (fun _ _ => true) regFix (some pFix) "svc").1 7).mpr
     ⟨{ service := 7, moduleName := "mod" }, rfl, rfl, pFix, rfl, rfl⟩,
   (getService_access_decision (fun _ _ => true) regFix (some pFix) "absent").2.1 rfl,
   (getService_access_decision (fun _ _ => false) regFix (some pFix) "svc").2.2.2.1
     { service := 7, moduleName := "mod" } pFix rfl rfl rfl⟩

/-! ### Claim C9: closing the event bus -/

theorem mapGet_append_of_some {κ β : Type} [DecidableEq κ]
    (l1 l2 : List (κ × β)) (k : κ) (v : β) (h : mapGet l1 k = some v) :
    mapGet (l1 ++ l2) k = some v := by
  induction l1 with
  | nil => simp [mapGet] at h
  | cons p rest ih =>
    cases p with
    | mk a b =>
      by_cases ha : a = k
      · subst ha
        have : b = v := by simpa [mapGet] using h
        simp [mapGet, this]
      · simp only [mapGet, if_neg ha] at h
        simpa [mapGet, ha] using ih h

theorem mapGet_append_of_none {κ β : Type} [DecidableEq κ]
    (l1 l2 : List (κ × β)) (k : κ) (h : mapGet l1 k = none) :
    mapGet (l1 ++ l2) k = mapGet l2 k := by
  induction l1 with
  | nil => rfl
  | cons p rest ih =>
    cases p with
    | mk a b =>
      by_cases ha : a = k
      · subst ha
        simp [mapGet] at h
      · simp only [mapGet, if_neg ha] at h
        simpa [mapGet, ha] using ih h

theorem mapGet_none_of_ne {κ β : Type} [DecidableEq κ]
    (l : List (κ × β)) (k : κ) (h : ∀ p ∈ l, p.1 ≠ k) : mapGet l k = none := by
  induction l with
  | nil => rfl
  | cons p rest ih =>
    cases p with
    | mk a b =>
      have ha : a ≠ k := h (a, b) (by simp)
      simp only [mapGet, if_neg ha]
      exact ih fun q hq => h q (by simp [hq])

theorem foldl_closeSink_eq_map {ε : Type} (ids : List Nat) :
    ∀ sinks : List (Nat × SinkState ε),
      ids.foldl closeSink sinks =
        sinks.map fun q =>
          if q.1 ∈ ids then (q.1, { q.2 with closed := true }) else q := by
  induction ids with
  | nil =>
    intro sinks
    simp
  | cons i rest ih =>
    intro sinks
    have step : closeSink sinks i =
        sinks.map fun q => if q.1 = i then (q.1, { q.2 with closed := true })
          else q := rfl
    calc (i :: rest).foldl closeSink sinks
        = rest.foldl closeSink (closeSink sinks i) := rfl
      _ = (closeSink sinks i).map (fun q =>
            if q.1 ∈ rest then (q.1, { q.2 with closed := true }) else q) :=
          ih (closeSink sinks i)
      _ = sinks.map ((fun q =>
            if q.1 ∈ rest then (q.1, { q.2 with closed := true }) else q) ∘
            (fun q => if q.1 = i then (q.1, { q.2 with closed := true })
              else q)) := by rw [step, List.map_map]
      _ = sinks.map (fun q =>
            if q.1 ∈ i :: rest then (q.1, { q.2 with closed := true })
              else q) := by
          apply List.map_congr_left
          intro q _
          by_cases hqi : q.1 = i
          · by_cases hqr : q.1 ∈ rest <;>
              simp [Function.comp, hqi, hqr, List.mem_cons]
          · by_cases hqr : q.1 ∈ rest <;>
              simp [Function.comp, hqi, hqr, List.mem_cons]

theorem foldl_topics_close_eq_map {ε : Type} (topics : List (String × List Nat)) :
    ∀ sinks : List (Nat × SinkState ε),
      topics.foldl (fun sk p => p.2.foldl closeSink sk) sinks =
        sinks.map fun q =>
          if topics.any (fun pr => q.1 ∈ pr.2) then
            (q.1, { q.2 with closed := true }) else q := by
  induction topics with
  | nil =>
    intro sinks
    simp
  | cons tp rest ih =>
    intro sinks
    calc (tp :: rest).foldl (fun sk p => p.2.foldl closeSink sk) sinks
        = rest.foldl (fun sk p => p.2.foldl closeSink sk)
            (tp.2.foldl closeSink sinks) := rfl
      _ = (tp.2.foldl closeSink sinks).map (fun q =>
            if rest.any (fun pr => q.1 ∈ pr.2) then
              (q.1, { q.2 with closed := true }) else q) :=
          ih (tp.2.foldl closeSink sinks)
      _ = (sinks.map fun q =>
            if q.1 ∈ tp.2 then (q.1, { q.2 with closed := true }) else q).map
            (fun q => if rest.any (fun pr => q.1 ∈ pr.2) then
              (q.1, { q.2 with closed := true }) else q) := by
          rw [foldl_closeSink_eq_map]
      _ = sinks.map (fun q =>
            if (tp :: rest).any (fun pr => q.1 ∈ pr.2) then
              (q.1, { q.2 with closed := true }) else q) := by
          rw [List.map_map]
          apply List.map_congr_left
          intro q _
          by_cases hqi : q.1 ∈ tp.2
          · by_cases hqr : rest.any (fun pr => q.1 ∈ pr.2) <;>
              simp [Function.comp, hqi, hqr, List.any_cons]
          · by_cases hqr : rest.any (fun pr => q.1 ∈ pr.2) <;>
              simp [Function.comp, hqi, hqr, List.any_cons]

theorem busClose_sinks_closed {ε : Type} (b : BusState ε) (hinv : busInv b) :
    ∀ p ∈ (busClose b).sinks, p.2.closed = true := by
  intro p hp
  by_cases hc : b.closed = true
  · rw [busClose, if_pos hc] at hp
    by_contra hopen
    have hfalse : p.2.closed = false := by
      cases hcl : p.2.closed with
      | false => rfl
      | true => exact absurd hcl hopen
    obtain ⟨t, ids, hids, _⟩ := hinv.1 p hp hfalse
    rw [hinv.2.1 hc] at hids
    simp [mapGet] at hids
  · rw [busClose, if_neg hc] at hp
    simp only at hp
    rw [foldl_topics_close_eq_map] at hp
    obtain ⟨q, hq, hpq⟩ := List.mem_map.mp hp
    by_cases hany : b.topics.any (fun pr => q.1 ∈ pr.2) = true
    · rw [if_pos hany] at hpq
      rw [← hpq]
    · rw [if_neg hany] at hpq
      subst hpq
      cases hqcl : q.2.closed with
      | true => rfl
      | false =>
        obtain ⟨t, ids, hids, hmem⟩ := hinv.1 q hq hqcl
        exfalso
        apply hany
        exact List.any_eq_true.mpr
          ⟨(t, ids), mapGet_eq_some_mem _ _ _ hids, by simpa using hmem⟩

theorem foldl_trySend_closed {ε : Type} (e : ε) (ids : List Nat) :
    ∀ sinks : List (Nat × SinkState ε), ∀ p ∈ ids.foldl (trySend e) sinks,
      ∃ s₀, (p.1, s₀) ∈ sinks ∧ p.2.closed = s₀.closed := by
  induction ids with
  | nil => intro sinks p hp; exact ⟨p.2, hp, rfl⟩
  | cons i rest ih =>
    intro sinks p hp
    obtain ⟨s₁, hs₁, hcl₁⟩ := ih (trySend e sinks i) p hp
    simp only [trySend, updateSink] at hs₁
    obtain ⟨q, hq, hpq⟩ := List.mem_map.mp hs₁
    by_cases hqi : q.1 = i
    · rw [if_pos hqi] at hpq
      injection hpq with hk hv
      refine ⟨q.2, by rw [← hk]; exact hq, ?_⟩
      rw [hcl₁, ← hv]
      by_cases hb : q.2.buf.length < 16 <;> simp [hb]
    · rw [if_neg hqi] at hpq
      have hk : q.1 = p.1 := by rw [hpq]
      have hv : q.2 = s₁ := by rw [hpq]
      exact ⟨q.2, by rw [← hk]; exact hq, by rw [hcl₁, hv]⟩

theorem busStep_preserves_inv {ε : Type} (b : BusState ε) (op : BusOp ε)
    (hinv : busInv b) : busInv (busStep b op) := by
  obtain ⟨h1, h2, h3⟩ := hinv
  cases op with
  | sub t =>
    simp only [busStep, subscribe]
    by_cases hc : b.closed = true
    · rw [if_pos hc]
      refine ⟨?_, ?_, ?_⟩
      · intro p hp hopen
        simp only [List.mem_append, List.mem_singleton] at hp
        cases hp with
        | inl hp => exact h1 p hp hopen
        | inr hp => subst hp; simp at hopen
      · intro _; exact h2 hc
      · intro p hp
        simp only [List.mem_append, List.mem_singleton] at hp
        cases hp with
        | inl hp => exact Nat.lt_succ_of_lt (h3 p hp)
        | inr hp => subst hp; exact Nat.lt_succ_self _
    · rw [if_neg hc]
      cases htop : mapGet b.topics t with
      | none =>
        dsimp only
        refine ⟨?_, ?_, ?_⟩
        · intro p hp hopen
          simp only [List.mem_append, List.mem_singleton] at hp
          cases hp with
          | inl hp =>
            obtain ⟨t₀, ids₀, hids₀, hmem₀⟩ := h1 p hp hopen
            exact ⟨t₀, ids₀, mapGet_append_of_some _ _ _ _ hids₀, hmem₀⟩
          | inr hp =>
            subst hp
            refine ⟨t, [b.nextId], ?_, by simp⟩
            rw [mapGet_append_of_none _ _ _ htop]
            simp [mapGet]
        · intro hcl
          exact absurd hcl hc
        · intro p hp
          simp only [List.mem_append, List.mem_singleton] at hp
          cases hp with
          | inl hp => exact Nat.lt_succ_of_lt (h3 p hp)
          | inr hp => subst hp; exact Nat.lt_succ_self _
      | some ids =>
        dsimp only
        refine ⟨?_, ?_, ?_⟩
        · intro p hp hopen
          simp only [List.mem_append, List.mem_singleton] at hp
          cases hp with
          | inl hp =>
            obtain ⟨t₀, ids₀, hids₀, hmem₀⟩ := h1 p hp hopen
            by_cases ht : t₀ = t
            · subst ht
              rw [htop] at hids₀
              injection hids₀ with hids₀
              subst hids₀
              exact ⟨t₀, ids ++ [b.nextId], mapGet_mapSet_self _ _ _,
                by simp [hmem₀]⟩
            · exact ⟨t₀, ids₀, by
                rw [mapGet_mapSet_ne _ t t₀ _ (fun hh => ht hh.symm)]
                exact hids₀, hmem₀⟩
          | inr hp =>
            subst hp
            exact ⟨t, ids ++ [b.nextId], mapGet_mapSet_self _ _ _, by simp⟩
        · intro hcl
          exact absurd hcl hc
        · intro p hp
          simp only [List.mem_append, List.mem_singleton] at hp
          cases hp with
          | inl hp => exact Nat.lt_succ_of_lt (h3 p hp)
          | inr hp => subst hp; exact Nat.lt_succ_self _
  | cancel t id =>
    simp only [busStep, cancelSub]
    cases htop : mapGet b.topics t with
    | none => exact ⟨h1, h2, h3⟩
    | some ids =>
      dsimp only
      by_cases hmem : id ∈ ids
      · rw [if_pos hmem]
        refine ⟨?_, ?_, ?_⟩
        · intro p hp hopen
          simp only [closeSink] at hp
          obtain ⟨q, hq, hpq⟩ := List.mem_map.mp hp
          by_cases hqid : q.1 = id
          · rw [if_pos hqid] at hpq
            rw [← hpq] at hopen
            simp at hopen
          · rw [if_neg hqid] at hpq
            subst hpq
            obtain ⟨t₀, ids₀, hids₀, hmem₀⟩ := h1 q hq hopen
            by_cases ht : t₀ = t
            · subst ht
              rw [htop] at hids₀
              cases hids₀
              have hmem' : q.1 ∈ ids.filter (· ≠ id) := by
                simp only [List.mem_filter]
                exact ⟨hmem₀, by simpa using hqid⟩
              have hne : (ids.filter (· ≠ id)).isEmpty = false := by
                cases hfe : (ids.filter (· ≠ id)) with
                | nil => rw [hfe] at hmem'; cases hmem'
                | cons x xs => simp [hfe]
              rw [hne]
              simp only [Bool.false_eq_true, if_false]
              exact ⟨t₀, ids.filter (· ≠ id), mapGet_mapSet_self _ _ _, hmem'⟩
            · refine ⟨t₀, ids₀, ?_, hmem₀⟩
              by_cases hfe : (ids.filter (· ≠ id)).isEmpty = true
              · simp only [hfe, if_true]
                rw [mapGet_mapDel_ne _ t t₀ (fun hh => ht hh.symm)]
                exact hids₀
              · simp only [hfe]
                simp only [Bool.false_eq_true, if_false]
                rw [mapGet_mapSet_ne _ t t₀ _ (fun hh => ht hh.symm)]
                exact hids₀
        · intro hcl
          have htops := h2 hcl
          rw [htops] at htop
          cases htop
        · intro p hp
          simp only [closeSink] at hp
          obtain ⟨q, hq, hpq⟩ := List.mem_map.mp hp
          have hkey : p.1 = q.1 := by
            by_cases hqid : q.1 = id
            · rw [if_pos hqid] at hpq; rw [← hpq]
            · rw [if_neg hqid] at hpq; rw [← hpq]
          rw [hkey]
          exact h3 q hq
      · rw [if_neg hmem]
        exact ⟨h1, h2, h3⟩
  | pub t e =>
    simp only [busStep, publish]
    refine ⟨?_, ?_, ?_⟩
    · intro p hp hopen
      obtain ⟨s₀, hs₀, hcl⟩ := foldl_trySend_closed e _ b.sinks p hp
      have hopen₀ : s₀.closed = false := by rw [← hcl]; exact hopen
      exact h1 (p.1, s₀) hs₀ hopen₀
    · exact h2
    · intro p hp
      obtain ⟨s₀, hs₀, _⟩ := foldl_trySend_closed e _ b.sinks p hp
      exact h3 (p.1, s₀) hs₀
  | close =>
    simp only [busStep]
    by_cases hc : b.closed = true
    · rw [busClose, if_pos hc]
      exact ⟨h1, h2, h3⟩
    · have hclosed := busClose_sinks_closed b ⟨h1, h2, h3⟩
      refine ⟨?_, ?_, ?_⟩
      · intro p hp hopen
        have := hclosed p hp
        rw [this] at hopen
        cases hopen
      · intro _
        rw [busClose, if_neg hc]
      · intro p hp
        rw [busClose, if_neg hc] at hp
        simp only at hp
        rw [foldl_topics_close_eq_map] at hp
        obtain ⟨q, hq, hpq⟩ := List.mem_map.mp hp
        have hkey : p.1 = q.1 := by
          by_cases hany : b.topics.any (fun pr => q.1 ∈ pr.2) = true
          · rw [if_pos hany] at hpq; rw [← hpq]
          · rw [if_neg hany] at hpq; rw [← hpq]
        rw [busClose, if_neg hc]
        simp only
        rw [hkey]
        exact h3 q hq

theorem busInv_init {ε : Type} : busInv (busInit ε) :=
  ⟨fun p hp => absurd hp (by simp [busInit]), fun _ => rfl,
   fun p hp => absurd hp (by simp [busInit])⟩

theorem busRun_inv {ε : Type} (ops : List (BusOp ε)) : busInv (busRun ops) := by
  suffices h : ∀ b, busInv b → busInv (ops.foldl busStep b) from h _ busInv_init
  induction ops with
  | nil => intro b hb; exact hb
  | cons op rest ih => intro b hb; exact ih _ (busStep_preserves_inv b op hb)

theorem busClose_closed {ε : Type} (b : BusState ε) :
    (busClose b).closed = true := by
  by_cases hc : b.closed = true
  · rw [busClose, if_pos hc]; exact hc
  · rw [busClose, if_neg hc]

/-- Claim C9: after close() every sink ever returned by subscribe is
closed and the topic map is cleared; a later subscribe hands back an
already-closed sink; a later publish changes nothing; and a second
close() is a no-op, so two consecutive closes equal one. -/
theorem busClose_closes_everything {ε : Type} (ops : List (BusOp ε))
    (t : String) (e : ε) :
    (∀ p ∈ (busClose (busRun ops)).sinks, p.2.closed = true) ∧
    (busClose (busRun ops)).topics = [] ∧
    mapGet (subscribe (busClose (busRun ops)) t).2.sinks
        (subscribe (busClose (busRun ops)) t).1 =
      some { closed := true, buf := [] } ∧
    publish (busClose (busRun ops)) t e = busClose (busRun ops) ∧
    busClose (busClose (busRun ops)) = busClose (busRun ops) := by
  have hinv := busRun_inv ops
  have hinvC : busInv (busClose (busRun ops)) :=
    busStep_preserves_inv (busRun ops) .close hinv
  have htopics : (busClose (busRun ops)).topics = [] := by
    by_cases hc : (busRun ops).closed = true
    · rw [busClose, if_pos hc]; exact hinv.2.1 hc
    · rw [busClose, if_neg hc]
  refine ⟨busClose_sinks_closed _ hinv, htopics, ?_, ?_, ?_⟩
  · have hBc := busClose_closed (busRun ops)
    have hnone : mapGet (busClose (busRun ops)).sinks
        (busClose (busRun ops)).nextId = none :=
      mapGet_none_of_ne _ _ fun p hp => Nat.ne_of_lt (hinvC.2.2 p hp)
    rw [subscribe, if_pos hBc]
    dsimp only
    rw [mapGet_append_of_none _ _ _ hnone]
    simp [mapGet]
  · rw [publish, htopics]
    simp only [mapGet, Option.getD_none, List.foldl_nil]
    rw [← htopics]
  · rw [busClose, if_pos (busClose_closed (busRun ops))]

theorem busClose_closes_everything_witness :
    ((0 : Nat), ({ closed := true, buf := [] } : SinkState Nat)).2.closed
      = true ∧
    (busClose (busRun ([BusOp.sub "t"] : List (BusOp Nat)))).topics = [] :=
  ⟨(busClose_closes_everything [BusOp.sub "t"] "t" (0 : Nat)).1
     (0, { closed := true, buf := [] }) (by decide),
   (busClose_closes_everything [BusOp.sub "t"] "t" (0 : Nat)).2.1⟩

/-! ### Claim C1: getModuleStartupOrder is a topological sort -/

theorem mapGet_isSome_of_mem_keys {κ β : Type} [DecidableEq κ]
    (l : List (κ × β)) (k : κ) (h : k ∈ l.map Prod.fst) :
    (mapGet l k).isSome = true := by
  induction l with
  | nil => simp at h
  | cons p rest ih =>
    by_cases hp : p.1 = k
    · simp [mapGet, hp]
    · simp only [List.map_cons, List.mem_cons] at h
      cases h with
      | inl h => exact absurd h.symm hp
      | inr h => simpa [mapGet, hp] using ih h

theorem mem_keys_of_mapGet_some {κ β : Type} [DecidableEq κ]
    (l : List (κ × β)) (k : κ) (v : β) (h : mapGet l k = some v) :
    k ∈ l.map Prod.fst := by
  have := mapGet_eq_some_mem l k v h
  exact List.mem_map.mpr ⟨(k, v), this, rfl⟩

theorem mapGet_of_mem_nodup {κ β : Type} [DecidableEq κ]
    (l : List (κ × β)) (p : κ × β) (hn : (l.map Prod.fst).Nodup)
    (hp : p ∈ l) : mapGet l p.1 = some p.2 := by
  induction l with
  | nil => simp at hp
  | cons q rest ih =>
    simp only [List.map_cons, List.nodup_cons] at hn
    simp only [List.mem_cons] at hp
    cases hp with
    | inl hp =>
      subst hp
      simp [mapGet]
    | inr hp =>
      by_cases hq : q.1 = p.1
      · exfalso
        exact hn.1 (hq ▸ List.mem_map.mpr ⟨p, hp, rfl⟩)
      · simpa [mapGet, hq] using ih hn.2 hp

theorem length_filter_split {α : Type} (l : List α) (p q : α → Bool) :
    (l.filter p).length =
      (l.filter fun a => p a && q a).length +
      (l.filter fun a => p a && !q a).length := by
  induction l with
  | nil => rfl
  | cons a rest ih =>
    by_cases hp : p a = true
    · by_cases hq : q a = true <;>
        simp [List.filter_cons, hp, hq, ih] <;> omega
    · have hp' : p a = false := by
        cases hpa : p a with
        | false => rfl
        | true => exact absurd hpa hp
      simp [List.filter_cons, hp', ih]

theorem namesBefore_append {l l' : List String} {u x : String}
    (h : namesBefore l u x) : namesBefore (l ++ l') u x := by
  obtain ⟨l1, l2, hl, hu⟩ := h
  exact ⟨l1, l2 ++ l', by rw [hl]; simp, hu⟩

theorem map_snd_filter_fst (name x : String) (deps : List (String × String)) :
    ((deps.map fun q => (q.1, name)).filter fun e => e.1 = x).map (fun e => e.2) =
      (deps.filter fun q => q.1 = x).map fun _ => name := by
  induction deps with
  | nil => rfl
  | cons q rest ih =>
    by_cases hq : q.1 = x <;>
      simp [List.filter_cons, hq, ih, -List.map_const', -List.map_const]

theorem addDepEdges_spec {V C : Type} (sv : SemverOps V C)
    (enabled : List (String × KModule)) (name : String)
    (deps : List (String × String))
    (hval : ∀ q ∈ deps, ∃ dm, mapGet enabled q.1 = some dm ∧
      ∃ c, sv.parseConstraint q.2 = some c ∧
      ∃ dv, sv.parseVersion dm.version = some dv ∧ sv.check c dv = true) :
    ∀ gi : List (String × List String) × List (String × Int),
      ∃ gi', addDepEdges sv enabled name deps gi = .ok gi' ∧
        (∀ x, (mapGet gi'.1 x).getD [] =
          (mapGet gi.1 x).getD [] ++
            ((deps.filter fun q => q.1 = x).map fun _ => name)) ∧
        (∀ x, (mapGet gi'.2 x).getD 0 =
          (mapGet gi.2 x).getD 0 + (if name = x then (deps.length : Int) else 0)) := by
  induction deps with
  | nil =>
    intro gi
    refine ⟨gi, rfl, fun x => by simp, fun x => by simp⟩
  | cons q rest ih =>
    intro gi
    obtain ⟨dm, hdm, c, hc, dv, hdv, hchk⟩ := hval q (by simp)
    have hrest := ih fun q' hq' => hval q' (by simp [hq'])
    obtain ⟨gi', heq, hg, hd⟩ := hrest
      (mapSet gi.1 q.1 ((mapGet gi.1 q.1).getD [] ++ [name]),
       mapSet gi.2 name ((mapGet gi.2 name).getD 0 + 1))
    refine ⟨gi', ?_, ?_, ?_⟩
    · simp only [addDepEdges, hdm, hc, hdv, hchk, if_true]
      exact heq
    · intro x
      rw [hg x]
      by_cases hx : q.1 = x
      · subst hx
        simp [mapGet_mapSet_self, List.filter_cons]
      · simp [mapGet_mapSet_ne _ _ _ _ hx, List.filter_cons, hx]
    · intro x
      rw [hd x]
      by_cases hx : name = x
      · subst hx
        simp [mapGet_mapSet_self]
        omega
      · simp [mapGet_mapSet_ne _ _ _ _ hx, hx]

theorem buildGraph_spec {V C : Type} (sv : SemverOps V C)
    (enabled : List (String × KModule)) (todo : List (String × KModule))
    (hval : ∀ p ∈ todo, (sv.parseVersion p.2.version).isSome = true ∧
      ∀ q ∈ p.2.dependencies, ∃ dm, mapGet enabled q.1 = some dm ∧
        ∃ c, sv.parseConstraint q.2 = some c ∧
        ∃ dv, sv.parseVersion dm.version = some dv ∧ sv.check c dv = true) :
    ∀ gi : List (String × List String) × List (String × Int),
      ∃ gi', buildGraph sv enabled todo gi = .ok gi' ∧
        (∀ x, (mapGet gi'.1 x).getD [] =
          (mapGet gi.1 x).getD [] ++
            (((depEdges todo).filter fun e => e.1 = x).map fun e => e.2)) ∧
        (∀ x, (mapGet gi'.2 x).getD 0 =
          (mapGet gi.2 x).getD 0 +
            ((((depEdges todo).filter fun e => e.2 = x).length : Int))) := by
  induction todo with
  | nil =>
    intro gi
    refine ⟨gi, rfl, fun x => by simp [depEdges], fun x => by simp [depEdges]⟩
  | cons p rest ih =>
    intro gi
    obtain ⟨hver, hdeps⟩ := hval p (by simp)
    obtain ⟨v, hv⟩ := Option.isSome_iff_exists.mp hver
    obtain ⟨gi₁, heq₁, hg₁, hd₁⟩ := addDepEdges_spec sv enabled p.1
      p.2.dependencies hdeps gi
    obtain ⟨gi', heq', hg', hd'⟩ := ih (fun p' hp' => hval p' (by simp [hp'])) gi₁
    refine ⟨gi', ?_, ?_, ?_⟩
    · cases p with
      | mk name m =>
        simp only [buildGraph, hv, heq₁]
        exact heq'
    · intro x
      rw [hg' x, hg₁ x]
      have hedges : depEdges (p :: rest) =
          (p.2.dependencies.map fun q => (q.1, p.1)) ++ depEdges rest := by
        simp [depEdges]
      rw [hedges, List.filter_append, List.map_append, List.append_assoc,
        map_snd_filter_fst]
    · intro x
      rw [hd' x, hd₁ x]
      have hedges : depEdges (p :: rest) =
          (p.2.dependencies.map fun q => (q.1, p.1)) ++ depEdges rest := by
        simp [depEdges]
      rw [hedges, List.filter_append, List.length_append]
      have hcount : ((p.2.dependencies.map fun q => (q.1, p.1)).filter
          fun e => e.2 = x).length =
          if p.1 = x then p.2.dependencies.length else 0 := by
        rw [List.filter_map]
        by_cases hx : p.1 = x
        · subst hx
          simp [Function.comp]
        · simp [Function.comp, hx]
      rw [hcount]
      by_cases hx : p.1 = x <;> simp [hx] <;> push_cast <;> ring

theorem mapGet_zeros {κ : Type} [DecidableEq κ]
    (l : List (κ × KModule)) (x : κ) :
    (mapGet (l.map fun p => (p.1, (0 : Int))) x).getD 0 = 0 := by
  induction l with
  | nil => rfl
  | cons p rest ih =>
    by_cases hp : p.1 = x
    · simp [mapGet, hp]
    · simpa [mapGet, hp] using ih

theorem processSuccs_inDeg (enabled : List (String × KModule))
    (S : List String) :
    ∀ inDeg x, (mapGet (processSuccs enabled S inDeg).1 x).getD 0 =
      (mapGet inDeg x).getD 0 - ((S.filter fun s => s = x).length : Int) := by
  induction S with
  | nil => intro inDeg x; simp [processSuccs]
  | cons s rest ih =>
    intro inDeg x
    simp only [processSuccs]
    rw [ih]
    by_cases hx : s = x
    · subst hx
      rw [mapGet_mapSet_self]
      simp only [Option.getD_some, List.filter_cons, decide_True, if_true,
        List.length_cons]
      push_cast
      omega
    · rw [mapGet_mapSet_ne _ _ _ _ hx]
      simp only [List.filter_cons]
      rw [if_neg (by simpa using hx)]

theorem processSuccs_adds (enabled : List (String × KModule))
    (hn5 : ∀ p ∈ enabled, p.2.name = p.1) (S : List String) :
    ∀ inDeg x,
      (x ∈ (processSuccs enabled S inDeg).2.map fun m => m.name) ↔
        (1 ≤ (mapGet inDeg x).getD 0 ∧
         (mapGet inDeg x).getD 0 ≤ ((S.filter fun s => s = x).length : Int) ∧
         (mapGet enabled x).isSome = true) := by
  induction S with
  | nil =>
    intro inDeg x
    simp only [processSuccs, List.map_nil, List.mem_nil_iff,
      List.filter_nil, List.length_nil]
    constructor
    · intro h; exact absurd h (by simp)
    · rintro ⟨h1, h2, _⟩
      push_cast at h2
      omega
  | cons s rest ih =>
    intro inDeg x
    simp only [processSuccs]
    by_cases hx : s = x
    · subst hx
      have hv1 : (mapGet (mapSet inDeg s ((mapGet inDeg s).getD 0 - 1)) s).getD 0
          = (mapGet inDeg s).getD 0 - 1 := by rw [mapGet_mapSet_self]; rfl
      have hflen : ((s :: rest).filter fun t => t = s).length =
          (rest.filter fun t => t = s).length + 1 := by
        simp [List.filter_cons]
      by_cases hd : (mapGet inDeg s).getD 0 - 1 = 0
      · rw [if_pos hd]
        cases hm : mapGet enabled s with
        | some sm =>
          have hsm : sm.name = s :=
            hn5 (s, sm) (mapGet_eq_some_mem _ _ _ hm)
          simp only [List.map_cons, List.mem_cons, hsm]
          constructor
          · intro _
            refine ⟨by omega, ?_, rfl⟩
            rw [hflen]
            push_cast
            omega
          · intro _
            simp
        | none =>
          rw [ih, hv1]
          constructor
          · rintro ⟨h1, _, _⟩
            omega
          · rintro ⟨_, _, h3⟩
            simp at h3
      · rw [if_neg hd, ih, hv1, hflen]
        constructor
        · rintro ⟨h1, h2, h3⟩
          refine ⟨by omega, ?_, h3⟩
          push_cast at h2 ⊢
          omega
        · rintro ⟨h1, h2, h3⟩
          refine ⟨by omega, ?_, h3⟩
          push_cast at h2 ⊢
          omega
    · have hv1 : (mapGet (mapSet inDeg s ((mapGet inDeg s).getD 0 - 1)) x).getD 0
          = (mapGet inDeg x).getD 0 := by rw [mapGet_mapSet_ne _ _ _ _ hx]
      have hflen : ((s :: rest).filter fun t => t = x) =
          rest.filter fun t => t = x := by
        simp [List.filter_cons, hx]
      by_cases hd : (mapGet inDeg s).getD 0 - 1 = 0
      · rw [if_pos hd]
        cases hm : mapGet enabled s with
        | some sm =>
          have hsm : sm.name = s :=
            hn5 (s, sm) (mapGet_eq_some_mem _ _ _ hm)
          simp only [List.map_cons, List.mem_cons, hsm]
          rw [ih, hv1, hflen]
          constructor
          · intro h
            cases h with
            | inl h => exact absurd h.symm hx
            | inr h => exact h
          · intro h
            exact Or.inr h
        | none =>
          rw [ih, hv1, hflen]
      · rw [if_neg hd, ih, hv1, hflen]

theorem processSuccs_adds_mem (enabled : List (String × KModule))
    (hn5 : ∀ p ∈ enabled, p.2.name = p.1) (S : List String) :
    ∀ inDeg, ∀ mod ∈ (processSuccs enabled S inDeg).2,
      mapGet enabled mod.name = some mod := by
  induction S with
  | nil => intro inDeg mod h; exact absurd h (by simp [processSuccs])
  | cons s rest ih =>
    intro inDeg mod h
    simp only [processSuccs] at h
    by_cases hd : (mapGet inDeg s).getD 0 - 1 = 0
    · rw [if_pos hd] at h
      cases hm : mapGet enabled s with
      | some sm =>
        rw [hm] at h
        simp only [List.mem_cons] at h
        cases h with
        | inl h =>
          subst h
          have hsm : mod.name = s :=
            hn5 (s, mod) (mapGet_eq_some_mem _ _ _ hm)
          rw [hsm]
          exact hm
        | inr h => exact ih _ mod h
      | none =>
        rw [hm] at h
        exact ih _ mod h
    · rw [if_neg hd] at h
      exact ih _ mod h

theorem processSuccs_adds_nodup (enabled : List (String × KModule))
    (hn5 : ∀ p ∈ enabled, p.2.name = p.1) (S : List String) :
    ∀ inDeg, ((processSuccs enabled S inDeg).2.map fun m => m.name).Nodup := by
  induction S with
  | nil => intro inDeg; simp [processSuccs]
  | cons s rest ih =>
    intro inDeg
    simp only [processSuccs]
    by_cases hd : (mapGet inDeg s).getD 0 - 1 = 0
    · rw [if_pos hd]
      cases hm : mapGet enabled s with
      | some sm =>
        have hsm : sm.name = s :=
          hn5 (s, sm) (mapGet_eq_some_mem _ _ _ hm)
        simp only [List.map_cons, List.nodup_cons, hsm]
        refine ⟨?_, ih _⟩
        rw [processSuccs_adds enabled hn5]
        rintro ⟨h1, _, _⟩
        rw [mapGet_mapSet_self] at h1
        simp only [Option.getD_some] at h1
        omega
      | none => exact ih _
    · rw [if_neg hd]
      exact ih _

theorem length_filter_implies {α : Type} (l : List α) (p q : α → Bool)
    (h : ∀ a ∈ l, p a = true → q a = true) :
    (l.filter p).length ≤ (l.filter q).length := by
  induction l with
  | nil => exact Nat.le_refl 0
  | cons a rest ih =>
    have hrest := ih fun a ha => h a (by simp [ha])
    by_cases hp : p a = true
    · have hq := h a (by simp) hp
      simp [List.filter_cons, hp, hq]
      omega
    · have hp' : p a = false := by
        cases hpa : p a with
        | false => rfl
        | true => exact absurd hpa hp
      by_cases hq : q a = true <;> simp [List.filter_cons, hp', hq] <;> omega

theorem kahnInv_step (enabled : List (String × KModule))
    (G : List (String × List String))
    (hn5 : ∀ p ∈ enabled, p.2.name = p.1)
    (hG : ∀ x, (mapGet G x).getD [] =
      (((depEdges enabled).filter fun e => e.1 = x).map fun e => e.2))
    (done qrest : List KModule) (m0 : KModule) (inDeg : List (String × Int))
    (hinv : kahnInv enabled done (m0 :: qrest) inDeg) :
    kahnInv enabled (done ++ [m0])
      (qrest ++ (processSuccs enabled ((mapGet G m0.name).getD []) inDeg).2)
      (processSuccs enabled ((mapGet G m0.name).getD []) inDeg).1 := by
  obtain ⟨h1, h2, h3, h4, h5⟩ := hinv
  have hScount : ∀ x,
      ((((mapGet G m0.name).getD []).filter fun s => s = x).length : Int) =
      (((depEdges enabled).filter
        fun e => e.1 = m0.name ∧ e.2 = x).length : Int) := by
    intro x
    congr 1
    rw [hG m0.name, List.filter_map, List.length_map, List.filter_filter]
    congr 1
    apply List.filter_congr
    intro e _
    by_cases he1 : e.1 = m0.name <;> by_cases he2 : e.2 = x <;>
      simp [Function.comp, he1, he2]
  have hmq : m0.name ∈ done.map (fun m => m.name) ++
      (m0 :: qrest).map fun m => m.name := by simp
  have hmNotDone : m0.name ∉ done.map fun m => m.name := by
    rw [List.nodup_append] at h1
    exact fun hmem => h1.2.2 hmem (by simp)
  -- the popped module's dependency sources are all emitted
  have hm0pred : ∀ e ∈ depEdges enabled, e.2 = m0.name →
      e.1 ∈ done.map fun m => m.name :=
    ((h4 m0.name).mp (Or.inr (by simp))).2
  -- in-degree after the decrement pass
  have h3' : ∀ x,
      (mapGet (processSuccs enabled ((mapGet G m0.name).getD []) inDeg).1 x).getD 0 =
      ((((depEdges enabled).filter fun e => e.2 = x ∧
        e.1 ∉ (done ++ [m0]).map (fun m => m.name)).length : Int)) := by
    intro x
    rw [processSuccs_inDeg, h3 x, hScount x]
    have hsplit := length_filter_split (depEdges enabled)
      (fun e => decide (e.2 = x ∧ e.1 ∉ done.map fun m => m.name))
      (fun e => decide (e.1 = m0.name))
    have e1 : ((depEdges enabled).filter fun e =>
        decide (e.2 = x ∧ e.1 ∉ done.map fun m => m.name) &&
        decide (e.1 = m0.name)) =
        (depEdges enabled).filter fun e => e.1 = m0.name ∧ e.2 = x := by
      apply List.filter_congr
      intro e _
      by_cases hx2 : e.2 = x <;> by_cases hx1 : e.1 = m0.name <;>
        simp [hx2, hx1, hmNotDone] <;> simp_all
    have e2 : ((depEdges enabled).filter fun e =>
        decide (e.2 = x ∧ e.1 ∉ done.map fun m => m.name) &&
        !decide (e.1 = m0.name)) =
        (depEdges enabled).filter fun e => e.2 = x ∧
          e.1 ∉ (done ++ [m0]).map (fun m => m.name) := by
      apply List.filter_congr
      intro e _
      by_cases hx2 : e.2 = x <;> by_cases hx1 : e.1 = m0.name <;>
        by_cases hxd : e.1 ∈ done.map (fun m => m.name) <;>
        simp [hx2, hx1, hxd]
    rw [e1, e2] at hsplit
    push_cast
    omega
  -- membership in the newly enqueued modules
  have haddsN : ∀ x,
      (x ∈ (processSuccs enabled ((mapGet G m0.name).getD []) inDeg).2.map
        fun m => m.name) ↔
      (x ∈ enabled.map Prod.fst ∧ 1 ≤ (mapGet inDeg x).getD 0 ∧
       (mapGet inDeg x).getD 0 ≤
         (((depEdges enabled).filter
           fun e => e.1 = m0.name ∧ e.2 = x).length : Int)) := by
    intro x
    rw [processSuccs_adds enabled hn5, hScount x]
    constructor
    · rintro ⟨ha, hb, hc⟩
      refine ⟨?_, ha, hb⟩
      obtain ⟨v, hv⟩ := Option.isSome_iff_exists.mp hc
      exact mem_keys_of_mapGet_some _ _ _ hv
    · rintro ⟨ha, hb, hc⟩
      exact ⟨hb, hc, mapGet_isSome_of_mem_keys _ _ ha⟩
  -- a newly enqueued name is not already done or pending
  have haddsFresh : ∀ x,
      (x ∈ (processSuccs enabled ((mapGet G m0.name).getD []) inDeg).2.map
        fun m => m.name) →
      x ∉ done.map (fun m => m.name) ++ (m0 :: qrest).map fun m => m.name := by
    intro x hx hxold
    obtain ⟨_, hb, _⟩ := (haddsN x).mp hx
    have hall : ∀ e ∈ depEdges enabled, e.2 = x →
        e.1 ∈ done.map fun m => m.name := by
      have := (h4 x).mp (by
        rcases List.mem_append.mp hxold with h | h
        · exact Or.inl h
        · exact Or.inr h)
      exact this.2
    have hnil : ((depEdges enabled).filter fun e => e.2 = x ∧
        e.1 ∉ done.map fun m => m.name) = [] := by
      rw [List.filter_eq_nil]
      rintro e he hcontra
      simp only [decide_eq_true_eq] at hcontra
      exact hcontra.2 (hall e he hcontra.1)
    rw [h3 x, hnil] at hb
    simp at hb
  refine ⟨?_, ?_, h3', ?_, ?_⟩
  · -- distinctness of emitted and pending names
    have hrearr : (done ++ [m0]).map (fun m => m.name) ++
        (qrest ++ (processSuccs enabled ((mapGet G m0.name).getD []) inDeg).2).map
          (fun m => m.name) =
        (done.map (fun m => m.name) ++ (m0 :: qrest).map fun m => m.name) ++
        (processSuccs enabled ((mapGet G m0.name).getD []) inDeg).2.map
          (fun m => m.name) := by
      simp
    rw [hrearr, List.nodup_append]
    exact ⟨h1, processSuccs_adds_nodup enabled hn5 _ _,
      fun x hx hx' => haddsFresh x hx' hx⟩
  · -- every emitted or pending module is the enabled module of its name
    intro mod hmod
    rcases List.mem_append.mp hmod with hmod | hmod
    · rcases List.mem_append.mp hmod with hmod | hmod
      · exact h2 mod (by simp [hmod])
      · simp only [List.mem_singleton] at hmod
        subst hmod
        exact h2 mod (by simp)
    · rcases List.mem_append.mp hmod with hmod | hmod
      · exact h2 mod (by simp [hmod])
      · exact processSuccs_adds_mem enabled hn5 _ _ mod hmod
  · -- emitted-or-pending exactly when all dependency sources emitted
    intro x
    constructor
    · intro hx
      have hx' : x ∈ done.map (fun m => m.name) ∨ x = m0.name ∨
          x ∈ qrest.map (fun m => m.name) ∨
          x ∈ (processSuccs enabled ((mapGet G m0.name).getD []) inDeg).2.map
            fun m => m.name := by
        rcases hx with hx | hx
        · simp only [List.map_append, List.mem_append] at hx
          rcases hx with hx | hx
          · exact Or.inl hx
          · simp at hx
            exact Or.inr (Or.inl hx)
        · simp only [List.map_append, List.mem_append] at hx
          rcases hx with hx | hx
          · exact Or.inr (Or.inr (Or.inl hx))
          · exact Or.inr (Or.inr (Or.inr hx))
      rcases hx' with hx' | hx' | hx' | hx'
      · obtain ⟨hk, hpred⟩ := (h4 x).mp (Or.inl hx')
        exact ⟨hk, fun e he h2x => by simp [hpred e he h2x]⟩
      · subst hx'
        obtain ⟨hk, hpred⟩ := (h4 m0.name).mp (Or.inr (by simp))
        exact ⟨hk, fun e he h2x => by simp [hpred e he h2x]⟩
      · obtain ⟨hk, hpred⟩ := (h4 x).mp (Or.inr (by simp [hx']))
        exact ⟨hk, fun e he h2x => by simp [hpred e he h2x]⟩
      · obtain ⟨hk, hb, hc⟩ := (haddsN x).mp hx'
        refine ⟨hk, fun e he h2x => ?_⟩
        have hzero := h3' x
        rw [processSuccs_inDeg, h3 x, hScount x] at hzero
        have hlen : (((depEdges enabled).filter fun e => e.2 = x ∧
            e.1 ∉ (done ++ [m0]).map (fun m => m.name)).length : Int) ≤ 0 := by
          rw [← hzero]
          rw [h3 x] at hb hc
          omega
        have hnil : ((depEdges enabled).filter fun e => e.2 = x ∧
            e.1 ∉ (done ++ [m0]).map (fun m => m.name)) = [] := by
          cases hfe : ((depEdges enabled).filter fun e => e.2 = x ∧
              e.1 ∉ (done ++ [m0]).map (fun m => m.name)) with
          | nil => rfl
          | cons y ys =>
            rw [hfe] at hlen
            simp at hlen
            omega
        rw [List.filter_eq_nil] at hnil
        have := hnil e he
        simp only [decide_eq_true_eq] at this
        by_contra hnot
        exact this ⟨h2x, hnot⟩
    · rintro ⟨hk, hpred⟩
      by_cases hall : ∀ e ∈ depEdges enabled, e.2 = x →
          e.1 ∈ done.map fun m => m.name
      · have := (h4 x).mpr ⟨hk, hall⟩
        rcases this with hx | hx
        · exact Or.inl (by simp [hx])
        · simp only [List.map_cons, List.mem_cons] at hx
          rcases hx with hx | hx
          · exact Or.inl (by simp [hx])
          · exact Or.inr (by simp [hx])
      · push_neg at hall
        obtain ⟨e₀, he₀, he₀2, he₀1⟩ := hall
        have he₀m : e₀.1 = m0.name := by
          have := hpred e₀ he₀ he₀2
          simp only [List.map_append, List.mem_append, List.map_cons,
            List.mem_singleton] at this
          rcases this with h | h
          · exact absurd h he₀1
          · simpa using h
        refine Or.inr (by
          simp only [List.map_append, List.mem_append]
          refine Or.inr ((haddsN x).mpr ⟨hk, ?_, ?_⟩)
          · rw [h3 x]
            have hmem : e₀ ∈ (depEdges enabled).filter fun e => e.2 = x ∧
                e.1 ∉ done.map fun m => m.name := by
              rw [List.mem_filter]
              exact ⟨he₀, by simp [he₀2, he₀1]⟩
            have hpos : 0 < ((depEdges enabled).filter fun e => e.2 = x ∧
                e.1 ∉ done.map fun m => m.name).length :=
              List.length_pos.mpr fun hnil => by rw [hnil] at hmem; cases hmem
            push_cast
            omega
          · rw [h3 x]
            have hmono := length_filter_implies (depEdges enabled)
              (fun e => decide (e.2 = x ∧ e.1 ∉ done.map fun m => m.name))
              (fun e => decide (e.1 = m0.name ∧ e.2 = x)) ?_
            · push_cast
              omega
            · intro e he hpe
              simp only [decide_eq_true_eq] at hpe ⊢
              have hin := hpred e he hpe.1
              simp only [List.map_append, List.mem_append,
                List.mem_singleton] at hin
              rcases hin with h | h
              · exact absurd h hpe.2
              · exact ⟨by simpa using h, hpe.1⟩)
  · -- topological order of the emitted prefix
    intro e he h2x
    simp only [List.map_append, List.mem_append, List.mem_singleton] at h2x
    rw [List.map_append]
    rcases h2x with h2x | h2x
    · exact namesBefore_append (h5 e he h2x)
    · have h2x' : e.2 = m0.name := by simpa using h2x
      have hsrc : e.1 ∈ done.map fun m => m.name := hm0pred e he h2x'
      refine ⟨done.map (fun m => m.name), [], ?_, hsrc⟩
      simp [h2x']

theorem kahnInv_empty_final (enabled : List (String × KModule))
    (done : List KModule) (inDeg : List (String × Int))
    (hinv : kahnInv enabled done [] inDeg) : kahnFinal enabled done := by
  obtain ⟨h1, h2, _, h4, h5⟩ := hinv
  refine ⟨by simpa using h1, fun mod h => h2 mod (by simpa using h), h5, ?_⟩
  intro x hk hnx
  have hnot : ¬(x ∈ done.map (fun m => m.name) ∨
      x ∈ ([] : List KModule).map fun m => m.name) := by simpa using hnx
  have hnr : ¬(x ∈ enabled.map Prod.fst ∧
      ∀ e ∈ depEdges enabled, e.2 = x → e.1 ∈ done.map fun m => m.name) :=
    fun h => hnot ((h4 x).mpr h)
  push_neg at hnr
  obtain ⟨e, he, he2, he1⟩ := hnr hk
  refine ⟨e.1, he1, ?_⟩
  have hex : e = (e.1, x) := by
    cases e with
    | mk a b =>
      simp only [Prod.mk.injEq]
      exact ⟨by simp, by simpa using he2⟩
  rw [← hex]
  exact he

theorem kahnLoopFuel_final (enabled : List (String × KModule))
    (G : List (String × List String))
    (hn5 : ∀ p ∈ enabled, p.2.name = p.1)
    (hG : ∀ x, (mapGet G x).getD [] =
      (((depEdges enabled).filter fun e => e.1 = x).map fun e => e.2)) :
    ∀ (fuel : Nat) (queue : List KModule) (inDeg : List (String × Int))
      (done : List KModule),
      queue.length + countPos inDeg ≤ fuel →
      kahnInv enabled done queue inDeg →
      kahnFinal enabled (done ++ kahnLoopFuel enabled G fuel queue inDeg) := by
  intro fuel
  induction fuel with
  | zero =>
    intro queue inDeg done hf hinv
    have hq : queue = [] := by
      cases queue with
      | nil => rfl
      | cons a b => simp at hf
    subst hq
    simpa [kahnLoopFuel] using kahnInv_empty_final enabled done inDeg hinv
  | succ f ih =>
    intro queue inDeg done hf hinv
    cases queue with
    | nil =>
      simpa [kahnLoopFuel] using kahnInv_empty_final enabled done inDeg hinv
    | cons m0 qrest =>
      simp only [kahnLoopFuel]
      have hstep := kahnInv_step enabled G hn5 hG done qrest m0 inDeg hinv
      have hm := processSuccs_measure enabled
        ((mapGet G m0.name).getD []) inDeg
      have hmeasure : (qrest ++
          (processSuccs enabled ((mapGet G m0.name).getD []) inDeg).2).length +
          countPos (processSuccs enabled ((mapGet G m0.name).getD []) inDeg).1
          ≤ f := by
        simp only [List.length_append, List.length_cons] at *
        omega
      have hres := ih _ _ _ hmeasure hstep
      simpa [List.append_assoc] using hres

theorem kahnInv_init (enabled : List (String × KModule))
    (D : List (String × Int))
    (hkeys : (enabled.map Prod.fst).Nodup)
    (hn5 : ∀ p ∈ enabled, p.2.name = p.1)
    (hD : ∀ x, (mapGet D x).getD 0 =
      (((depEdges enabled).filter fun e => e.2 = x).length : Int)) :
    kahnInv enabled []
      ((enabled.filter fun p => (mapGet D p.1).getD 0 = 0).map Prod.snd) D := by
  have hQN : ((enabled.filter fun p =>
      (mapGet D p.1).getD 0 = 0).map Prod.snd).map (fun m => m.name) =
      (enabled.filter fun p => (mapGet D p.1).getD 0 = 0).map Prod.fst := by
    rw [List.map_map]
    apply List.map_congr_left
    intro p hp
    exact hn5 p (List.mem_of_mem_filter hp)
  have hQmem : ∀ x, (x ∈ ((enabled.filter fun p =>
      (mapGet D p.1).getD 0 = 0).map Prod.snd).map fun m => m.name) ↔
      (x ∈ enabled.map Prod.fst ∧ (mapGet D x).getD 0 = 0) := by
    intro x
    rw [hQN]
    constructor
    · intro h
      obtain ⟨p, hp, hpx⟩ := List.mem_map.mp h
      have hpf := List.mem_filter.mp hp
      subst hpx
      refine ⟨List.mem_map.mpr ⟨p, hpf.1, rfl⟩, by simpa using hpf.2⟩
    · rintro ⟨hk, hz⟩
      obtain ⟨p, hp, hpx⟩ := List.mem_map.mp hk
      subst hpx
      exact List.mem_map.mpr ⟨p, List.mem_filter.mpr ⟨hp, by simpa using hz⟩, rfl⟩
  refine ⟨?_, ?_, ?_, ?_, ?_⟩
  · simp only [List.map_nil, List.nil_append]
    rw [hQN]
    exact (List.Sublist.map Prod.fst (List.filter_sublist enabled)).nodup hkeys
  · intro mod hmod
    simp only [List.nil_append] at hmod
    obtain ⟨p, hp, hpm⟩ := List.mem_map.mp hmod
    subst hpm
    have hpe := List.mem_of_mem_filter hp
    rw [hn5 p hpe]
    exact mapGet_of_mem_nodup enabled p hkeys hpe
  · intro x
    rw [hD x]
    congr 2
    apply List.filter_congr
    intro e _
    simp
  · intro x
    simp only [List.map_nil, List.mem_nil_iff, false_or]
    rw [hQmem x]
    constructor
    · rintro ⟨hk, hz⟩
      refine ⟨hk, ?_⟩
      intro e he he2
      exfalso
      rw [hD x] at hz
      have hmem : e ∈ (depEdges enabled).filter fun e => e.2 = x :=
        List.mem_filter.mpr ⟨he, by simpa using he2⟩
      have : 0 < ((depEdges enabled).filter fun e => e.2 = x).length :=
        List.length_pos.mpr fun hnil => by rw [hnil] at hmem; cases hmem
      omega
    · rintro ⟨hk, hpred⟩
      refine ⟨hk, ?_⟩
      rw [hD x]
      have hnil : ((depEdges enabled).filter fun e => e.2 = x) = [] := by
        rw [List.filter_eq_nil]
        intro e he hcontra
        have := hpred e he (by simpa using hcontra)
        simp at this
      rw [hnil]
      rfl
  · intro e he h2x
    simp at h2x

theorem mem_depEdges (enabled : List (String × KModule))
    (p : String × KModule) (q : String × String)
    (hp : p ∈ enabled) (hq : q ∈ p.2.dependencies) :
    (q.1, p.1) ∈ depEdges enabled :=
  List.mem_flatMap.mpr ⟨p, hp, List.mem_map.mpr ⟨q, hq, rfl⟩⟩

theorem depEdges_snd_mem (enabled : List (String × KModule))
    (e : String × String) (he : e ∈ depEdges enabled) :
    e.2 ∈ enabled.map Prod.fst := by
  obtain ⟨p, hp, he'⟩ := List.mem_flatMap.mp he
  obtain ⟨q, _, hqe⟩ := List.mem_map.mp he'
  subst hqe
  exact List.mem_map.mpr ⟨p, hp, rfl⟩

theorem namesBefore_indexOf (l : List String) (u x : String) (hn : l.Nodup)
    (h : namesBefore l u x) : l.indexOf u < l.indexOf x := by
  obtain ⟨l1, l2, hl, hu⟩ := h
  subst hl
  rw [List.indexOf_append_of_mem hu]
  have hxnot : x ∉ l1 := by
    rw [List.nodup_append] at hn
    exact fun hx => hn.2.2 hx (by simp)
  rw [List.indexOf_append_of_not_mem hxnot, List.indexOf_cons_self]
  have := List.indexOf_lt_length.mpr hu
  omega

theorem no_cycle_of_topo (enabled : List (String × KModule)) (l : List String)
    (hn : l.Nodup)
    (htopo : ∀ e ∈ depEdges enabled, namesBefore l e.1 e.2) :
    ¬ hasDepCycle enabled := by
  rintro ⟨x, hx⟩
  have hmono : ∀ a b,
      Relation.TransGen (fun u v => (u, v) ∈ depEdges enabled) a b →
      l.indexOf a < l.indexOf b := by
    intro a b h
    induction h with
    | single h => exact namesBefore_indexOf l _ _ hn (htopo (_, _) h)
    | tail _ h ih =>
      exact Nat.lt_trans ih (namesBefore_indexOf l _ _ hn (htopo (_, _) h))
  exact absurd (hmono x x hx) (Nat.lt_irrefl _)

theorem cycle_of_stuck (enabled : List (String × KModule)) (full : List String)
    (hsrc : ∀ e ∈ depEdges enabled, e.1 ∈ enabled.map Prod.fst)
    (hstuck : ∀ x ∈ enabled.map Prod.fst, x ∉ full →
      ∃ u, u ∉ full ∧ (u, x) ∈ depEdges enabled)
    (x₀ : String) (hx₀ : x₀ ∈ enabled.map Prod.fst) (hx₀n : x₀ ∉ full) :
    hasDepCycle enabled := by
  have hstep : ∀ x : {y // y ∈ enabled.map Prod.fst ∧ y ∉ full},
      ∃ u : {y // y ∈ enabled.map Prod.fst ∧ y ∉ full},
        (u.1, x.1) ∈ depEdges enabled := by
    rintro ⟨x, hx1, hx2⟩
    obtain ⟨u, hu1, hu2⟩ := hstuck x hx1 hx2
    exact ⟨⟨u, hsrc (u, x) hu2, hu1⟩, hu2⟩
  let f : Nat → {y // y ∈ enabled.map Prod.fst ∧ y ∉ full} := fun n =>
    Nat.rec ⟨x₀, hx₀, hx₀n⟩ (fun _ prev => (hstep prev).choose) n
  have hedge : ∀ n, ((f (n + 1)).1, (f n).1) ∈ depEdges enabled := fun n =>
    (hstep (f n)).choose_spec
  have hchain : ∀ k i, Relation.TransGen
      (fun u v => (u, v) ∈ depEdges enabled) (f (i + k + 1)).1 (f i).1 := by
    intro k
    induction k with
    | zero => intro i; exact Relation.TransGen.single (hedge i)
    | succ k ih =>
      intro i
      exact Relation.TransGen.head (hedge (i + k + 1)) (ih i)
  have hmaps : ∀ n ∈ Finset.range ((enabled.map Prod.fst).length + 1),
      (f n).1 ∈ (enabled.map Prod.fst).toFinset := by
    intro n _
    exact List.mem_toFinset.mpr (f n).2.1
  have hcard : ((enabled.map Prod.fst).toFinset).card <
      (Finset.range ((enabled.map Prod.fst).length + 1)).card := by
    rw [Finset.card_range]
    exact Nat.lt_succ_of_le (List.toFinset_card_le _)
  obtain ⟨i, _, j, _, hij, hfij⟩ :=
    Finset.exists_ne_map_eq_of_card_lt_of_maps_to hcard hmaps
  have main : ∀ a b : Nat, a < b → (f a).1 = (f b).1 → hasDepCycle enabled := by
    intro a b hlt heq
    refine ⟨(f a).1, ?_⟩
    have hb : b = a + (b - a - 1) + 1 := by omega
    have hc := hchain (b - a - 1) a
    rw [← hb] at hc
    rw [← heq] at hc
    exact hc
  rcases Nat.lt_or_ge i j with hlt | hge
  · exact main i j hlt hfij
  · have hgt : j < i := by omega
    exact main j i hgt hfij.symm

/-- Claim C1: for every set of enabled modules whose versions parse and
whose declared dependency constraints all parse and are satisfied by the
dependencies' versions, getModuleStartupOrder returns a sequence naming
each enabled module exactly once (the name sequence is a permutation of
the enabled names, without duplicates, and each element is the enabled
module of its name) in which every declared dependency appears before
its dependent; when the dependency graph among enabled modules has a
cycle it returns the circular-dependency error instead. -/
theorem getModuleStartupOrder_topological {V C : Type} (sv : SemverOps V C)
    (modules : List (String × KModule)) (states : List (String × Bool))
    (hnodup : (modules.map Prod.fst).Nodup)
    (hnames : ∀ p ∈ modules, p.2.name = p.1)
    (hval : ∀ p ∈ enabledOf modules states,
      (sv.parseVersion p.2.version).isSome = true ∧
      ∀ q ∈ p.2.dependencies,
        ∃ dm, mapGet (enabledOf modules states) q.1 = some dm ∧
        ∃ c, sv.parseConstraint q.2 = some c ∧
        ∃ dv, sv.parseVersion dm.version = some dv ∧ sv.check c dv = true) :
    (¬ hasDepCycle (enabledOf modules states) →
      ∃ order, getModuleStartupOrder sv modules states = .ok order ∧
        (order.map fun m => m.name).Perm
          ((enabledOf modules states).map Prod.fst) ∧
        (∀ mod ∈ order, mapGet (enabledOf modules states) mod.name = some mod) ∧
        (∀ p ∈ enabledOf modules states, ∀ q ∈ p.2.dependencies,
          namesBefore (order.map fun m => m.name) q.1 p.1)) ∧
    (hasDepCycle (enabledOf modules states) →
      getModuleStartupOrder sv modules states = .error .circular) := by
  have hkeys : ((enabledOf modules states).map Prod.fst).Nodup :=
    (List.Sublist.map Prod.fst (List.filter_sublist modules)).nodup hnodup
  have hn5 : ∀ p ∈ enabledOf modules states, p.2.name = p.1 :=
    fun p hp => hnames p (List.mem_of_mem_filter hp)
  obtain ⟨gi, hgi, hg, hd⟩ := buildGraph_spec sv (enabledOf modules states)
    (enabledOf modules states) hval
    ([], (enabledOf modules states).map fun p => (p.1, (0 : Int)))
  have hG : ∀ x, (mapGet gi.1 x).getD [] =
      (((depEdges (enabledOf modules states)).filter
        fun e => e.1 = x).map fun e => e.2) := by
    intro x
    rw [hg x]
    simp [mapGet]
  have hD : ∀ x, (mapGet gi.2 x).getD 0 =
      (((depEdges (enabledOf modules states)).filter
        fun e => e.2 = x).length : Int) := by
    intro x
    rw [hd x]
    simp [mapGet_zeros]
  have hrun : getModuleStartupOrder sv modules states =
      (if (kahnLoop (enabledOf modules states) gi.1
          (((enabledOf modules states).filter
            fun p => (mapGet gi.2 p.1).getD 0 = 0).map Prod.snd)
          gi.2).length = (enabledOf modules states).length
       then .ok (kahnLoop (enabledOf modules states) gi.1
          (((enabledOf modules states).filter
            fun p => (mapGet gi.2 p.1).getD 0 = 0).map Prod.snd) gi.2)
       else .error .circular) := by
    simp only [getModuleStartupOrder, hgi]
  have hfinal : kahnFinal (enabledOf modules states)
      (kahnLoop (enabledOf modules states) gi.1
        (((enabledOf modules states).filter
          fun p => (mapGet gi.2 p.1).getD 0 = 0).map Prod.snd) gi.2) := by
    have hinit := kahnInv_init (enabledOf modules states) gi.2 hkeys hn5 hD
    have hres := kahnLoopFuel_final (enabledOf modules states) gi.1 hn5 hG
      ((((enabledOf modules states).filter
        fun p => (mapGet gi.2 p.1).getD 0 = 0).map Prod.snd).length +
        countPos gi.2)
      (((enabledOf modules states).filter
        fun p => (mapGet gi.2 p.1).getD 0 = 0).map Prod.snd)
      gi.2 [] (Nat.le_refl _) hinit
    simpa [kahnLoop] using hres
  obtain ⟨hfnodup, hfmem, hftopo, hfstuck⟩ := hfinal
  have hLsub : (kahnLoop (enabledOf modules states) gi.1
      (((enabledOf modules states).filter
        fun p => (mapGet gi.2 p.1).getD 0 = 0).map Prod.snd) gi.2).map
        (fun m => m.name) ⊆ (enabledOf modules states).map Prod.fst := by
    intro x hx
    obtain ⟨mod, hmod, hxm⟩ := List.mem_map.mp hx
    subst hxm
    exact mem_keys_of_mapGet_some _ _ _ (hfmem mod hmod)
  have hEsrc : ∀ e ∈ depEdges (enabledOf modules states),
      e.1 ∈ (enabledOf modules states).map Prod.fst := by
    intro e he
    obtain ⟨p, hp, he'⟩ := List.mem_flatMap.mp he
    obtain ⟨q, hq, hqe⟩ := List.mem_map.mp he'
    subst hqe
    obtain ⟨_, hdeps⟩ := hval p hp
    obtain ⟨dm, hdm, _⟩ := hdeps q hq
    exact mem_keys_of_mapGet_some _ _ _ hdm
  have hperm_of_len : (kahnLoop (enabledOf modules states) gi.1
      (((enabledOf modules states).filter
        fun p => (mapGet gi.2 p.1).getD 0 = 0).map Prod.snd) gi.2).length =
      (enabledOf modules states).length →
      ((kahnLoop (enabledOf modules states) gi.1
        (((enabledOf modules states).filter
          fun p => (mapGet gi.2 p.1).getD 0 = 0).map Prod.snd) gi.2).map
        fun m => m.name).Perm ((enabledOf modules states).map Prod.fst) := by
    intro hlen
    refine (List.subperm_of_subset hfnodup hLsub).perm_of_length_le ?_
    simp only [List.length_map]
    omega
  constructor
  · intro hnc
    have hlen : (kahnLoop (enabledOf modules states) gi.1
        (((enabledOf modules states).filter
          fun p => (mapGet gi.2 p.1).getD 0 = 0).map Prod.snd) gi.2).length =
        (enabledOf modules states).length := by
      by_contra hne
      have hmiss : ∃ x ∈ (enabledOf modules states).map Prod.fst,
          x ∉ (kahnLoop (enabledOf modules states) gi.1
            (((enabledOf modules states).filter
              fun p => (mapGet gi.2 p.1).getD 0 = 0).map Prod.snd) gi.2).map
            fun m => m.name := by
        by_contra hall
        push_neg at hall
        have hsubk := (List.subperm_of_subset hkeys hall).length_le
        have hsubl := (List.subperm_of_subset hfnodup hLsub).length_le
        simp only [List.length_map] at hsubk hsubl
        omega
      obtain ⟨x₀, hx₀k, hx₀n⟩ := hmiss
      exact absurd (cycle_of_stuck (enabledOf modules states) _ hEsrc hfstuck
        x₀ hx₀k hx₀n) hnc
    refine ⟨_, by rw [hrun, if_pos hlen], hperm_of_len hlen, hfmem, ?_⟩
    intro p hp q hq
    have hedge := mem_depEdges (enabledOf modules states) p q hp hq
    apply hftopo (q.1, p.1) hedge
    exact (hperm_of_len hlen).mem_iff.mpr (List.mem_map.mpr ⟨p, hp, rfl⟩)
  · intro hcyc
    rw [hrun]
    by_cases hlen : (kahnLoop (enabledOf modules states) gi.1
        (((enabledOf modules states).filter
          fun p => (mapGet gi.2 p.1).getD 0 = 0).map Prod.snd) gi.2).length =
        (enabledOf modules states).length
    · exfalso
      have htopoAll : ∀ e ∈ depEdges (enabledOf modules states),
          namesBefore ((kahnLoop (enabledOf modules states) gi.1
            (((enabledOf modules states).filter
              fun p => (mapGet gi.2 p.1).getD 0 = 0).map Prod.snd) gi.2).map
            fun m => m.name) e.1 e.2 := fun e he =>
        hftopo e he ((hperm_of_len hlen).mem_iff.mpr
          (depEdges_snd_mem (enabledOf modules states) e he))
      exact no_cycle_of_topo (enabledOf modules states) _ hfnodup htopoAll hcyc
    · rw [if_neg hlen]

/-- Witness for C1: two enabled modules without dependencies form an
acyclic graph, and getModuleStartupOrder emits both in a topological
order. -/
theorem getModuleStartupOrder_topological_witness :
    ∃ order,
      getModuleStartupOrder svUnit
        [("A", okModule "A" []), ("B", okModule "B" [])]
        [("A", true), ("B", true)] = .ok order ∧
      (order.map fun m => m.name).Perm
        ((enabledOf [("A", okModule "A" []), ("B", okModule "B" [])]
          [("A", true), ("B", true)]).map Prod.fst) ∧
      (∀ mod ∈ order,
        mapGet (enabledOf [("A", okModule "A" []), ("B", okModule "B" [])]
          [("A", true), ("B", true)]) mod.name = some mod) ∧
      (∀ p ∈ enabledOf [("A", okModule "A" []), ("B", okModule "B" [])]
          [("A", true), ("B", true)],
        ∀ q ∈ p.2.dependencies,
          namesBefore (order.map fun m => m.name) q.1 p.1) := by
  have hempty : depEdges (enabledOf
      [("A", okModule "A" []), ("B", okModule "B" [])]
      [("A", true), ("B", true)]) = [] := by decide
  have hnc : ¬ hasDepCycle (enabledOf
      [("A", okModule "A" []), ("B", okModule "B" [])]
      [("A", true), ("B", true)]) := by
    rintro ⟨x, hx⟩
    cases hx with
    | single h => rw [hempty] at h; exact absurd h (List.not_mem_nil _)
    | tail _ h => rw [hempty] at h; exact absurd h (List.not_mem_nil _)
  have hdeps : ∀ p ∈ enabledOf
      [("A", okModule "A" []), ("B", okModule "B" [])]
      [("A", true), ("B", true)], p.2.dependencies = [] := by decide
  refine (getModuleStartupOrder_topological svUnit
    [("A", okModule "A" []), ("B", okModule "B" [])]
    [("A", true), ("B", true)] (by decide) (by decide) ?_).1 hnc
  intro p hp
  refine ⟨rfl, ?_⟩
  intro q hq
  rw [hdeps p hp] at hq
  exact absurd hq (List.not_mem_nil _)

end Acacia
